import Mathlib

/-!
# Verification of the Hashi puzzle engine

Shallow embedding of the Hashiwokakero ("Bridges") puzzle engine found in
`src/components/HashiGame.tsx`: puzzle generation (island sampling, candidate
edges, union-find spanning tree, augmentation, the 100-attempt retry loop and
its fallback board), the runtime connection validator, the bridge ledger
(add / upgrade / remove and the partial-reduction click handler) and the win
evaluator.  JavaScript numbers are modelled as `Int`.  JavaScript reference
equality (`===`) on `Point` objects is modelled as structural equality of the
full `Point` record; every board mutation in the source rebuilds the affected
point objects (spread copies), so a stored point snapshot and the current
board object agree under `===` only in situations where the full records also
agree structurally.  The random string ids of `createUniqueId` are modelled as
a fresh natural-number counter carried in the game state, capturing the
uniqueness that function is documented to provide.
-/

namespace Hashi

/-- An island (`Point` in the source): required connections `value`,
grid coordinates, the (never-updated) per-direction counters, and the
mutable `remainingConnections` budget. -/
structure Point where
  value : Int
  x : Int
  y : Int
  bridgesHorizontal : Int
  bridgesVertical : Int
  remainingConnections : Int
deriving DecidableEq, Repr

/-- A placed bridge (`Bridge` in the source).  `start` and `stop` are the
point records captured when the bridge was created (the source stores the
object references current at creation time; `stop` models the source field
named `end`, a Lean keyword). -/
structure Bridge where
  id : Nat
  start : Point
  stop : Point
  count : Int
  isVertical : Bool
deriving DecidableEq, Repr

/-- The board is just the list of islands. -/
abbrev GameBoard := List Point

/-- React component state relevant to the engine: the board, the active
bridge list, and the fresh-id counter modelling `createUniqueId`. -/
structure GameState where
  board : GameBoard
  bridges : List Bridge
  nextId : Nat
deriving DecidableEq, Repr

/-- `hasIslandInBetween` from the source: true when the two points are not
axis-aligned, or when some other island lies strictly between them on the
shared row/column. -/
def hasIslandInBetween (start stop : Point) (all : List Point) : Bool :=
  if start.x ≠ stop.x ∧ start.y ≠ stop.y then true
  else
    all.any fun p =>
      if p = start ∨ p = stop then false
      else if start.x = stop.x then
        decide (p.x = start.x ∧ min start.y stop.y < p.y ∧ p.y < max start.y stop.y)
      else
        decide (p.y = start.y ∧ min start.x stop.x < p.x ∧ p.x < max start.x stop.x)

/-- `isValidConnection` from the source: same row or column, both budgets
positive, and no island of `board` other than the two endpoints strictly
between them on the shared line.  (The source never compares `start` with
`end` themselves.) -/
def isValidConnection (start stop : Point) (board : GameBoard) : Bool :=
  if start.x ≠ stop.x ∧ start.y ≠ stop.y then false
  else if start.remainingConnections ≤ 0 ∨ stop.remainingConnections ≤ 0 then false
  else
    ! board.any fun p =>
      if p = start ∨ p = stop then false
      else if start.x = stop.x then
        decide (p.x = start.x ∧ min start.y stop.y < p.y ∧ p.y < max start.y stop.y)
      else
        decide (p.y = start.y ∧ min start.x stop.x < p.x ∧ p.x < max start.x stop.x)

/-- `updatePointConnections` from the source: subtract `change` from the
budget of every board point whose coordinates match either endpoint. -/
def updatePointConnections (board : GameBoard) (start stop : Point) (change : Int) :
    GameBoard :=
  board.map fun p =>
    if (p.x = start.x ∧ p.y = start.y) ∨ (p.x = stop.x ∧ p.y = stop.y) then
      { p with remainingConnections := p.remainingConnections - change }
    else p

/-- The bridge list transformation inside `addOrUpdateBridge`: walk the list
looking for the first bridge whose stored endpoint records equal the two
argument records (the source's `findIndex` with `===`); remove it if its
count is already `≥ 2`, upgrade it to `2` otherwise, and append a fresh
single bridge when no stored bridge matches.  Returns the new list together
with the `change` passed to `updatePointConnections`. -/
def addBridgeAux (a b : Point) (nid : Nat) : List Bridge → List Bridge × Int
  | [] =>
      ([{ id := nid, start := a, stop := b, count := 1, isVertical := a.x = b.x }], 1)
  | br :: rest =>
      if (br.start = a ∧ br.stop = b) ∨ (br.start = b ∧ br.stop = a) then
        if br.count ≥ 2 then (rest, -2)
        else ({ br with count := 2 } :: rest, 1)
      else
        let r := addBridgeAux a b nid rest
        (br :: r.1, r.2)

/-- `addOrUpdateBridge` from the source: the primary 0→1→2→remove cycle on
the pair `(a, b)`, applied to the whole game state. -/
def addOrUpdateBridge (s : GameState) (a b : Point) : GameState :=
  let r := addBridgeAux a b s.nextId s.bridges
  { board := updatePointConnections s.board a b r.2
    bridges := r.1
    nextId := s.nextId + 1 }

/-- The bridging part of `handlePointClick` from the source: with `selected`
already selected and `pt` clicked, do nothing when they are the same island,
and otherwise apply `addOrUpdateBridge` exactly when `isValidConnection`
approves. -/
def handlePointClick (s : GameState) (selected pt : Point) : GameState :=
  if pt = selected then s
  else if isValidConnection selected pt s.board then addOrUpdateBridge s selected pt
  else s

/-- `handleBridgeClick` from the source: partial removal of `bridge`.
If its count is `> 1`, set the count of every stored bridge with the same id
to `1`; otherwise drop every stored bridge with that id.  In both cases add
`1` to the budget of every board point whose coordinates match one of the
clicked bridge's stored endpoints. -/
def handleBridgeClick (s : GameState) (bridge : Bridge) : GameState :=
  if bridge.count > 1 then
    { s with
      bridges := s.bridges.map fun b => if b.id = bridge.id then { b with count := 1 } else b
      board := s.board.map fun p =>
        if (p.x = bridge.start.x ∧ p.y = bridge.start.y) ∨
            (p.x = bridge.stop.x ∧ p.y = bridge.stop.y) then
          { p with remainingConnections := p.remainingConnections + 1 }
        else p }
  else
    { s with
      bridges := s.bridges.filter fun b => b.id ≠ bridge.id
      board := s.board.map fun p =>
        if (p.x = bridge.start.x ∧ p.y = bridge.start.y) ∨
            (p.x = bridge.stop.x ∧ p.y = bridge.stop.y) then
          { p with remainingConnections := p.remainingConnections + 1 }
        else p }

/-- The win-check effect from the source: for a non-empty board the game is
won exactly when every island's budget is `0`.  (`board.every` in the
source.) -/
def winEvaluator (board : GameBoard) : Bool :=
  board.all fun p => p.remainingConnections = 0

/-! ## Puzzle generation

The generator draws random positions and shuffles the candidate edge list.
The model below is deterministic in an `AttemptChoices` record supplying one
attempt's random draws: the list of chosen positions (the source's rejection
sampling guarantees they are pairwise distinct, and the two shuffles of the
candidate array produce permutations of it — `WFChoices` states exactly
these facts about the draws). -/

/-- A used edge during generation (`usedEdges` entries in the source):
the two island records and the line count. -/
structure UsedEdge where
  start : Point
  stop : Point
  count : Int
deriving DecidableEq, Repr

/-- The fresh islands created from the chosen positions: `value`, the
direction counters and `remainingConnections` all start at `0`. -/
def mkIslands (ps : List (Int × Int)) : List Point :=
  ps.map fun q =>
    { x := q.1, y := q.2, value := 0, bridgesHorizontal := 0, bridgesVertical := 0,
      remainingConnections := 0 }

/-- All ordered pairs `(l[i], l[j])` with `i < j`, in the source's
double-loop order. -/
def allPairs : List Point → List (Point × Point)
  | [] => []
  | a :: rest => rest.map (fun b => (a, b)) ++ allPairs rest

/-- The `potential` candidate list of the source: axis-aligned pairs with no
island strictly in between. -/
def buildPotential (islands : List Point) : List (Point × Point) :=
  (allPairs islands).filter fun e =>
    decide (e.1.x = e.2.x ∨ e.1.y = e.2.y) && ! hasIslandInBetween e.1 e.2 islands

/-- The union-find of `unionFindInit`, modelled extensionally as the list of
its components (the source's parent map realises exactly this partition;
`compOf` is `find`, `ufUnion` is `union`, `sameSetB` is `sameSet`). -/
def compOf (comps : List (List Point)) (a : Point) : List Point :=
  (comps.find? fun c => c.contains a).getD [a]

/-- `sameSet` of the source: the two points lie in a common component. -/
def sameSetB (comps : List (List Point)) (a b : Point) : Bool :=
  comps.any fun c => c.contains a && c.contains b

/-- `union` of the source: merge the component of `b` into the component of
`a` (a no-op when they already coincide). -/
def ufUnion (comps : List (List Point)) (a b : Point) : List (List Point) :=
  let ca := compOf comps a
  let cb := compOf comps b
  if ca = cb then comps
  else (ca ++ cb) :: comps.filter fun c => decide (c ≠ ca ∧ c ≠ cb)

/-- The initial union-find: every island is its own component. -/
def initComps (islands : List Point) : List (List Point) :=
  islands.map fun p => [p]

/-- The spanning-tree loop of the source: process the (shuffled) candidate
list, accepting an edge as a new single used edge and unioning its endpoints
exactly when they are not already in the same component.  Returns the final
union-find together with the accepted edges, in processing order. -/
def mstFold (es : List (Point × Point)) (comps : List (List Point)) :
    List (List Point) × List UsedEdge :=
  match es with
  | [] => (comps, [])
  | e :: rest =>
      if sameSetB comps e.1 e.2 then mstFold rest comps
      else
        let r := mstFold rest (ufUnion comps e.1 e.2)
        (r.1, { start := e.1, stop := e.2, count := 1 } :: r.2)

/-- One step of the augmentation loop: find the first used edge whose
endpoint records match the candidate (either orientation); upgrade it to
count `2` when its count is `< 2` (consuming an extra, the returned `true`),
leave it alone otherwise (consuming nothing).  `none` when no used edge
matches. -/
def augmentOne (a b : Point) : List UsedEdge → Option (List UsedEdge × Bool)
  | [] => none
  | u :: rest =>
      if (u.start = a ∧ u.stop = b) ∨ (u.start = b ∧ u.stop = a) then
        if u.count < 2 then some ({ u with count := 2 } :: rest, true)
        else some (u :: rest, false)
      else
        (augmentOne a b rest).map fun r => (u :: r.1, r.2)

/-- The augmentation loop of the source: while extras remain, upgrade the
candidate's existing used edge or append it as a new single edge. -/
def augmentFold (extras : Nat) : List (Point × Point) → List UsedEdge → List UsedEdge
  | [], used => used
  | e :: rest, used =>
      if extras = 0 then used
      else
        match augmentOne e.1 e.2 used with
        | some r => augmentFold (if r.2 then extras - 1 else extras) rest r.1
        | none => augmentFold (extras - 1) rest (used ++ [{ start := e.1, stop := e.2, count := 1 }])

/-- Step 5 of the source's generation loop: each island's `value` grows by
the count of every used edge one of whose stored endpoint records is that
island. -/
def assignValues (islands : List Point) (used : List UsedEdge) : List Point :=
  islands.map fun p =>
    { p with
      value := p.value +
        ((used.filter fun e => e.start = p ∨ e.stop = p).map fun e => e.count).sum }

/-- The random draws of one generation attempt: the sampled positions and
the two shuffled candidate lists (for the spanning tree and for the
augmentation pass). -/
structure AttemptChoices where
  positions : List (Int × Int)
  mstEdges : List (Point × Point)
  extraEdges : List (Point × Point)

/-- What the source's sampling guarantees about one attempt's draws: the
rejection-sampled positions are pairwise distinct and both shuffles are
permutations of the candidate list. -/
def WFChoices (c : AttemptChoices) : Prop :=
  c.positions.Nodup ∧
    c.mstEdges.Perm (buildPotential (mkIslands c.positions)) ∧
    c.extraEdges.Perm (buildPotential (mkIslands c.positions))

/-- One iteration of the source's generation loop: build the islands, the
spanning tree and the extra edges, sum the values, reject (`none`) when some
island's value is `0`, and otherwise return the islands with
`remainingConnections` initialised to `value`. -/
def attemptBuild (c : AttemptChoices) : Option GameBoard :=
  let islands := mkIslands c.positions
  let used1 := (mstFold c.mstEdges (initComps islands)).2
  let used2 := augmentFold (islands.length / 2) c.extraEdges used1
  let withVals := assignValues islands used2
  if withVals.any fun p => p.value = 0 then none
  else some (withVals.map fun p => { p with remainingConnections := p.value })

/-- The fixed fallback board of the source: two islands at `(0,0)` and
`(1,0)`, each with `value = 2` and `remainingConnections = 2`. -/
def fallbackBoard : GameBoard :=
  [{ x := 0, y := 0, value := 2, remainingConnections := 2,
     bridgesHorizontal := 0, bridgesVertical := 0 },
   { x := 1, y := 0, value := 2, remainingConnections := 2,
     bridgesHorizontal := 0, bridgesVertical := 0 }]

/-- `generateValidPuzzle` from the source, deterministic in the list of
attempts' draws (the source runs exactly 100 attempts): the first accepted
attempt's board, or the fallback board when every attempt rejects. -/
def generateValidPuzzle (cs : List AttemptChoices) : GameBoard :=
  match cs.findSome? attemptBuild with
  | some b => b
  | none => fallbackBoard

/-- The state right after a puzzle is (re)loaded: the generated board with
an empty bridge list (`setBridges([])` in `loadRandomPuzzle` and the
mode-change effect). -/
def mkInitialState (board : GameBoard) : GameState :=
  { board := board, bridges := [], nextId := 0 }

/-! ## Reachable states and the ledger invariant -/

/-- The bridge is incident (by coordinates) to the island `p`. -/
def incident (br : Bridge) (p : Point) : Prop :=
  (br.start.x = p.x ∧ br.start.y = p.y) ∨ (br.stop.x = p.x ∧ br.stop.y = p.y)

instance (br : Bridge) (p : Point) : Decidable (incident br p) := by
  unfold incident; infer_instance

/-- Sum of the counts of the bridges incident to island `p`. -/
def incidentSum (bridges : List Bridge) (p : Point) : Int :=
  (bridges.map fun br => if incident br p then br.count else 0).sum

/-- The ledger equation of the spec: every island's budget is its value
minus the total count of its incident bridges. -/
def LedgerInv (s : GameState) : Prop :=
  ∀ p ∈ s.board, p.remainingConnections = p.value - incidentSum s.bridges p

/-- Distinct islands occupy distinct grid coordinates. -/
def DistinctCoords (board : GameBoard) : Prop :=
  board.Pairwise fun p q => (p.x, p.y) ≠ (q.x, q.y)

/-- The states reachable from a freshly generated board by the primary
cycle (a click on a second island, validated inside `handlePointClick`) and
the reduction path (`handleBridgeClick` on a bridge of the current bridge
list, the only way the UI invokes it). -/
inductive Reachable : GameState → Prop
  | init (cs : List AttemptChoices) (hlen : cs.length = 100)
      (hwf : ∀ c ∈ cs, WFChoices c) :
      Reachable (mkInitialState (generateValidPuzzle cs))
  | prim {s : GameState} (a b : Point) (ha : a ∈ s.board) (hb : b ∈ s.board)
      (hs : Reachable s) : Reachable (handlePointClick s a b)
  | reduce {s : GameState} (br : Bridge) (hbr : br ∈ s.bridges)
      (hs : Reachable s) : Reachable (handleBridgeClick s br)

/-- Number of stored bridges whose endpoint coordinates form the unordered
pair `{c, d}` of grid coordinates. -/
def pairBridgeCount (bridges : List Bridge) (c d : Int × Int) : Nat :=
  (bridges.filter fun br =>
      decide (((br.start.x, br.start.y) = c ∧ (br.stop.x, br.stop.y) = d) ∨
        ((br.start.x, br.start.y) = d ∧ (br.stop.x, br.stop.y) = c))).length

/-- At most one stored bridge per unordered pair of endpoint coordinates. -/
def AtMostOnePerPair (bridges : List Bridge) : Prop :=
  ∀ c d, pairBridgeCount bridges c d ≤ 1

/-- The island of `board` at coordinates `c`, if any (the UI hands the click
handlers the current board's point objects; this lookup models picking the
current object at a fixed coordinate). -/
def findIsland (board : GameBoard) (c : Int × Int) : Option Point :=
  board.find? fun p => decide (p.x = c.1 ∧ p.y = c.2)

/-- Apply the primary cycle to the islands currently at coordinates `c` and
`d` (models clicking the pair of islands at those positions). -/
def applyPairAt (s : GameState) (c d : Int × Int) : GameState :=
  match findIsland s.board c, findIsland s.board d with
  | some a, some b => handlePointClick s a b
  | _, _ => s

/-- The legality contract as the spec words it (`isLegal`): the two islands
are distinct, share exactly one coordinate axis, both have budget left, and
no third island lies strictly between them on the shared axis. -/
def specLegal (start stop : Point) (board : GameBoard) : Prop :=
  start ≠ stop ∧
    ((start.x = stop.x ∧ start.y ≠ stop.y) ∨ (start.y = stop.y ∧ start.x ≠ stop.x)) ∧
    0 < start.remainingConnections ∧ 0 < stop.remainingConnections ∧
    ∀ p ∈ board, p ≠ start → p ≠ stop →
      ¬ (start.x = stop.x ∧ p.x = start.x ∧
            min start.y stop.y < p.y ∧ p.y < max start.y stop.y) ∧
      ¬ (start.y = stop.y ∧ p.y = start.y ∧
            min start.x stop.x < p.x ∧ p.x < max start.x stop.x)

instance (c : AttemptChoices) : Decidable (WFChoices c) := by
  unfold WFChoices; infer_instance

instance (start stop : Point) (board : GameBoard) :
    Decidable (specLegal start stop board) := by
  unfold specLegal; infer_instance

/-! ## Basic facts about generation -/

/-- Every board an accepted attempt returns has `remainingConnections`
equal to `value` at every island. -/
lemma attemptBuild_rem_eq_value {c : AttemptChoices} {b : GameBoard}
    (h : attemptBuild c = some b) : ∀ p ∈ b, p.remainingConnections = p.value := by
  unfold attemptBuild at h
  simp only at h
  split at h
  · exact absurd h (by simp)
  · rw [Option.some.injEq] at h
    subst h
    intro p hp
    rcases List.mem_map.mp hp with ⟨q, _, rfl⟩
    rfl

/-- Every generated board (accepted or fallback) has `remainingConnections`
equal to `value` at every island. -/
lemma generate_rem_eq_value (cs : List AttemptChoices) :
    ∀ p ∈ generateValidPuzzle cs, p.remainingConnections = p.value := by
  unfold generateValidPuzzle
  cases hfs : cs.findSome? attemptBuild with
  | none =>
      intro p hp
      have hp2 : p = fallbackBoard[0] ∨ p = fallbackBoard[1] := by
        simpa [fallbackBoard] using hp
      rcases hp2 with rfl | rfl <;> rfl
  | some b =>
      rcases List.exists_of_findSome?_eq_some hfs with ⟨c, _, hc⟩
      exact attemptBuild_rem_eq_value hc

/-- A generation attempt that always rejects: two islands on no common
axis, so the candidate list is empty and both values stay `0`. -/
def badChoice : AttemptChoices :=
  { positions := [(0, 0), (1, 1)], mstEdges := [], extraEdges := [] }

/-- An island record as created at the start of a generation attempt. -/
def rawIsland (x y : Int) : Point :=
  { x := x, y := y, value := 0, bridgesHorizontal := 0, bridgesVertical := 0,
    remainingConnections := 0 }

/-- A generation attempt that is accepted: two adjacent islands, one
candidate edge, taken by the spanning tree and upgraded by augmentation. -/
def goodChoice : AttemptChoices :=
  { positions := [(0, 0), (1, 0)]
    mstEdges := [(rawIsland 0 0, rawIsland 1 0)]
    extraEdges := [(rawIsland 0 0, rawIsland 1 0)] }

/-! ## C10: the win evaluator -/

/-- C10: the win evaluator is a pure predicate declaring a non-empty board
solved exactly when every island's `remainingConnections` is `0`, and two
evaluations of the same board agree. -/
theorem winEvaluator_spec (b : GameBoard) (hb : b ≠ []) :
    (winEvaluator b = true ↔ ∀ p ∈ b, p.remainingConnections = 0) ∧
      winEvaluator b = winEvaluator b := by
  refine ⟨?_, rfl⟩
  unfold winEvaluator
  simp

/-- Witness for C10 at the fallback board. -/
theorem winEvaluator_spec_witness :
    (winEvaluator fallbackBoard = true ↔
        ∀ p ∈ fallbackBoard, p.remainingConnections = 0) ∧
      winEvaluator fallbackBoard = winEvaluator fallbackBoard :=
  winEvaluator_spec fallbackBoard (by decide)

/-! ## C8: budgets equal values right after generation -/

/-- C8: immediately after generation — whether an accepted attempt or the
fallback — every island's `remainingConnections` equals its `value`. -/
theorem generate_remaining_eq_value (cs : List AttemptChoices) (p : Point)
    (hp : p ∈ generateValidPuzzle cs) : p.remainingConnections = p.value :=
  generate_rem_eq_value cs p hp

/-- Witness for C8: the first island of the board generated from an empty
attempt list (the fallback). -/
theorem generate_remaining_eq_value_witness :
    (fallbackBoard[0]).remainingConnections = (fallbackBoard[0]).value :=
  generate_remaining_eq_value [] fallbackBoard[0] (by decide)

/-! ## C7: exhaustion returns the fixed fallback board -/

/-- C7: when all 100 attempts reject, the generator returns the fixed
fallback board — exactly two islands at `(0,0)` and `(1,0)`, each with
`value = 2` and `remainingConnections = 2` — and the freshly loaded state
places no bridges. -/
theorem generate_exhausted_fallback (cs : List AttemptChoices)
    (hlen : cs.length = 100) (hall : ∀ c ∈ cs, attemptBuild c = none) :
    generateValidPuzzle cs = fallbackBoard ∧
      fallbackBoard =
        [{ x := 0, y := 0, value := 2, remainingConnections := 2,
            bridgesHorizontal := 0, bridgesVertical := 0 },
          { x := 1, y := 0, value := 2, remainingConnections := 2,
            bridgesHorizontal := 0, bridgesVertical := 0 }] ∧
      (mkInitialState (generateValidPuzzle cs)).bridges = [] := by
  have hnone : cs.findSome? attemptBuild = none :=
    List.findSome?_eq_none_iff.mpr hall
  unfold generateValidPuzzle
  rw [hnone]
  exact ⟨rfl, rfl, rfl⟩

/-- Witness for C7: one hundred copies of the rejecting attempt. -/
theorem generate_exhausted_fallback_witness :
    generateValidPuzzle (List.replicate 100 badChoice) = fallbackBoard ∧
      fallbackBoard =
        [{ x := 0, y := 0, value := 2, remainingConnections := 2,
            bridgesHorizontal := 0, bridgesVertical := 0 },
          { x := 1, y := 0, value := 2, remainingConnections := 2,
            bridgesHorizontal := 0, bridgesVertical := 0 }] ∧
      (mkInitialState (generateValidPuzzle (List.replicate 100 badChoice))).bridges = [] :=
  generate_exhausted_fallback (List.replicate 100 badChoice) (by decide)
    (by decide)

/-! ## C2: the connection validator -/

/-- The first fallback island, at `(0, 0)`. -/
def islA : Point :=
  { x := 0, y := 0, value := 2, remainingConnections := 2,
    bridgesHorizontal := 0, bridgesVertical := 0 }

/-- The second fallback island, at `(1, 0)`. -/
def islB : Point :=
  { x := 1, y := 0, value := 2, remainingConnections := 2,
    bridgesHorizontal := 0, bridgesVertical := 0 }

/-- What the validator actually decides: at least one shared axis (`start`
and `end` themselves are never compared, so `start = end` passes), both
budgets positive, and no other island strictly between on the branch the
code selects (the vertical branch whenever the `x`s agree, the horizontal
branch otherwise). -/
def amendedLegal (start stop : Point) (board : GameBoard) : Prop :=
  (start.x = stop.x ∨ start.y = stop.y) ∧
    0 < start.remainingConnections ∧ 0 < stop.remainingConnections ∧
    ∀ p ∈ board, p ≠ start → p ≠ stop →
      ¬ (start.x = stop.x ∧ p.x = start.x ∧
            min start.y stop.y < p.y ∧ p.y < max start.y stop.y) ∧
      ¬ (start.x ≠ stop.x ∧ p.y = start.y ∧
            min start.x stop.x < p.x ∧ p.x < max start.x stop.x)

/-- C2 counterexample: on the fallback board the validator accepts the pair
`(A, A)` — the same island twice — although the spec's contract requires
`start ≠ end` (and hence rejection). -/
theorem isValidConnection_self_counterexample :
    isValidConnection islA islA fallbackBoard = true ∧
      ¬ specLegal islA islA fallbackBoard := by
  constructor
  · decide
  · decide

/-- C2 amended: the validator returns `true` iff the two islands share at
least one coordinate axis (it never rejects `start = end`), both budgets
are positive, and no other island lies strictly between them on the branch
the code selects by comparing the `x` coordinates. -/
theorem isValidConnection_iff (start stop : Point) (board : GameBoard) :
    isValidConnection start stop board = true ↔ amendedLegal start stop board := by
  unfold isValidConnection amendedLegal
  by_cases hax : start.x ≠ stop.x ∧ start.y ≠ stop.y
  · simp only [if_pos hax]
    constructor
    · intro h; exact absurd h (by simp)
    · rintro ⟨hor, -⟩
      rcases hax with ⟨hx, hy⟩
      rcases hor with h | h
      · exact absurd h hx
      · exact absurd h hy
  · simp only [if_neg hax]
    by_cases hrem : start.remainingConnections ≤ 0 ∨ stop.remainingConnections ≤ 0
    · simp only [if_pos hrem]
      constructor
      · intro h; exact absurd h (by simp)
      · rintro ⟨-, h1, h2, -⟩
        rcases hrem with h | h
        · omega
        · omega
    · simp only [if_neg hrem]
      push_neg at hax hrem
      constructor
      · intro h
        refine ⟨?_, hrem.1, hrem.2, ?_⟩
        · by_cases hx : start.x = stop.x
          · exact Or.inl hx
          · exact Or.inr (hax hx)
        · intro p hp hps hpe
          rw [Bool.not_eq_eq_eq_not, Bool.not_true, List.any_eq_false] at h
          have hf := h p hp
          rw [if_neg (by simp [hps, hpe])] at hf
          by_cases hx : start.x = stop.x
          · rw [if_pos hx, decide_eq_true_eq] at hf
            exact ⟨fun hc => hf ⟨hc.2.1, hc.2.2⟩, fun hc => absurd hx hc.1⟩
          · rw [if_neg hx, decide_eq_true_eq] at hf
            exact ⟨fun hc => absurd hc.1 hx, fun hc => hf ⟨hc.2.1, hc.2.2⟩⟩
      · rintro ⟨-, -, -, hbet⟩
        rw [Bool.not_eq_eq_eq_not, Bool.not_true, List.any_eq_false]
        intro p hp
        by_cases hps : p = start ∨ p = stop
        · rw [if_pos hps]
          exact Bool.false_ne_true
        · push_neg at hps
          rw [if_neg (by simp [hps.1, hps.2])]
          have hb := hbet p hp hps.1 hps.2
          by_cases hx : start.x = stop.x
          · rw [if_pos hx, decide_eq_true_eq]
            intro hc
            exact hb.1 ⟨hx, hc⟩
          · rw [if_neg hx, decide_eq_true_eq]
            intro hc
            exact hb.2 ⟨hx, hc⟩

/-! ## C3: the reduction path on an absent pair -/

/-- A bridge value whose endpoint pair has no bridge in the fresh fallback
state. -/
def phantomBridge : Bridge :=
  { id := 7, start := islA, stop := islB, count := 1, isVertical := false }

/-- C3 counterexample: clicking a bridge that is not in the (empty) bridge
list of the fresh fallback state leaves the bridge list unchanged but
increments both endpoints' `remainingConnections` from 2 to 3 — the
operation is not a no-op on the board. -/
theorem handleBridgeClick_absent_counterexample :
    (handleBridgeClick (mkInitialState fallbackBoard) phantomBridge).bridges =
        (mkInitialState fallbackBoard).bridges ∧
      (handleBridgeClick (mkInitialState fallbackBoard) phantomBridge).board ≠
        (mkInitialState fallbackBoard).board ∧
      ((handleBridgeClick (mkInitialState fallbackBoard) phantomBridge).board.map
          fun p => p.remainingConnections) = [3, 3] := by
  refine ⟨by decide, by decide, by decide⟩

/-- C3 amended: a reduction request whose bridge id is absent from the
bridge list leaves the bridge set unchanged and raises no error, but it is
not a no-op on the board: every island at one of the request's endpoint
coordinates has its `remainingConnections` incremented by 1. -/
theorem handleBridgeClick_absent (s : GameState) (br : Bridge)
    (h : ∀ b ∈ s.bridges, b.id ≠ br.id) :
    (handleBridgeClick s br).bridges = s.bridges ∧
      (handleBridgeClick s br).board =
        s.board.map fun p =>
          if (p.x = br.start.x ∧ p.y = br.start.y) ∨
              (p.x = br.stop.x ∧ p.y = br.stop.y) then
            { p with remainingConnections := p.remainingConnections + 1 }
          else p := by
  unfold handleBridgeClick
  by_cases hc : br.count > 1
  · rw [if_pos hc]
    refine ⟨?_, rfl⟩
    have : ∀ b ∈ s.bridges,
        (if b.id = br.id then { b with count := 1 } else b) = b := by
      intro b hb
      rw [if_neg (h b hb)]
    rw [List.map_congr_left this]
    simp
  · rw [if_neg hc]
    refine ⟨?_, rfl⟩
    rw [List.filter_eq_self]
    intro b hb
    simpa using h b hb

/-- Witness for C3's amended claim: the phantom bridge against the fresh
fallback state. -/
theorem handleBridgeClick_absent_witness :
    (handleBridgeClick (mkInitialState fallbackBoard) phantomBridge).bridges =
        (mkInitialState fallbackBoard).bridges ∧
      (handleBridgeClick (mkInitialState fallbackBoard) phantomBridge).board =
        (mkInitialState fallbackBoard).board.map fun p =>
          if (p.x = phantomBridge.start.x ∧ p.y = phantomBridge.start.y) ∨
              (p.x = phantomBridge.stop.x ∧ p.y = phantomBridge.stop.y) then
            { p with remainingConnections := p.remainingConnections + 1 }
          else p :=
  handleBridgeClick_absent (mkInitialState fallbackBoard) phantomBridge (by decide)

/-! ## C4: one bridge per pair? -/

/-- The fallback islands after one bridge has been placed between them. -/
def islA1 : Point :=
  { x := 0, y := 0, value := 2, remainingConnections := 1,
    bridgesHorizontal := 0, bridgesVertical := 0 }

/-- See `islA1`. -/
def islB1 : Point :=
  { x := 1, y := 0, value := 2, remainingConnections := 1,
    bridgesHorizontal := 0, bridgesVertical := 0 }

/-- When no stored bridge's endpoint records match the two argument
records (in either orientation), `addBridgeAux` appends a fresh single
bridge. -/
lemma addBridgeAux_no_match (a b : Point) (nid : Nat) (l : List Bridge)
    (h : ∀ br ∈ l, ¬ ((br.start = a ∧ br.stop = b) ∨ (br.start = b ∧ br.stop = a))) :
    addBridgeAux a b nid l =
      (l ++ [{ id := nid, start := a, stop := b, count := 1,
               isVertical := a.x = b.x }], 1) := by
  induction l with
  | nil => rfl
  | cons br rest ih =>
      unfold addBridgeAux
      rw [if_neg (h br (List.mem_cons_self br rest))]
      rw [ih fun x hx => h x (List.mem_cons_of_mem br hx)]
      rfl

/-- C4 counterexample: from the freshly generated fallback board, two
validated primary-cycle applications to the same pair produce a reachable
state whose bridge list holds two distinct count-1 bridges for the single
unordered coordinate pair `{(0,0), (1,0)}` — the second request appended a
bridge instead of upgrading the first. -/
theorem two_bridges_same_pair_counterexample :
    Reachable (handlePointClick
        (handlePointClick (mkInitialState fallbackBoard) islA islB) islA1 islB1) ∧
      pairBridgeCount (handlePointClick
          (handlePointClick (mkInitialState fallbackBoard) islA islB)
          islA1 islB1).bridges (0, 0) (1, 0) = 2 ∧
      ¬ AtMostOnePerPair (handlePointClick
          (handlePointClick (mkInitialState fallbackBoard) islA islB)
          islA1 islB1).bridges := by
  have h0 : Reachable (mkInitialState fallbackBoard) := by
    have h := Reachable.init (List.replicate 100 badChoice) (by decide)
      (by decide)
    rwa [show generateValidPuzzle (List.replicate 100 badChoice) = fallbackBoard
      from by decide] at h
  have h1 := Reachable.prim islA islB (by decide) (by decide) h0
  have h2 := Reachable.prim islA1 islB1 (by decide) (by decide) h1
  refine ⟨h2, by decide, fun hmost => absurd (hmost (0, 0) (1, 0)) (by decide)⟩

/-- C4 amended: `addOrUpdateBridge` finds an existing bridge only by
structural equality of the stored endpoint records with the two argument
records; when none matches — in particular when the stored snapshots are
stale copies of the islands — it appends a fresh count-1 bridge for the
pair, so several bridges can pile up on one unordered coordinate pair. -/
theorem addOrUpdateBridge_no_match_appends (s : GameState) (a b : Point)
    (h : ∀ br ∈ s.bridges,
        ¬ ((br.start = a ∧ br.stop = b) ∨ (br.start = b ∧ br.stop = a))) :
    (addOrUpdateBridge s a b).bridges =
        s.bridges ++ [{ id := s.nextId, start := a, stop := b, count := 1,
                        isVertical := a.x = b.x }] ∧
      (addOrUpdateBridge s a b).board = updatePointConnections s.board a b 1 := by
  unfold addOrUpdateBridge
  rw [addBridgeAux_no_match a b s.nextId s.bridges h]
  exact ⟨rfl, rfl⟩

/-- Witness for C4's amended claim: a second request on the fallback pair
whose only stored bridge holds stale snapshots (`remainingConnections = 2`)
of the now-updated islands (`remainingConnections = 1`); the request
appends a second bridge for the same coordinate pair. -/
theorem addOrUpdateBridge_no_match_appends_witness :
    (addOrUpdateBridge (handlePointClick (mkInitialState fallbackBoard) islA islB)
          islA1 islB1).bridges =
        (handlePointClick (mkInitialState fallbackBoard) islA islB).bridges ++
          [{ id := (handlePointClick (mkInitialState fallbackBoard) islA islB).nextId,
              start := islA1, stop := islB1, count := 1,
              isVertical := islA1.x = islB1.x }] ∧
      (addOrUpdateBridge (handlePointClick (mkInitialState fallbackBoard) islA islB)
          islA1 islB1).board =
        updatePointConnections
          (handlePointClick (mkInitialState fallbackBoard) islA islB).board
          islA1 islB1 1 :=
  addOrUpdateBridge_no_match_appends
    (handlePointClick (mkInitialState fallbackBoard) islA islB) islA1 islB1
    (by decide)

/-! ## C5: the four-application cycle -/

/-- `k` successive primary-cycle applications to the pair of islands
currently at coordinates `c` and `d`. -/
def applyPairIter (c d : Int × Int) : Nat → GameState → GameState
  | 0, s => s
  | k + 1, s => applyPairAt (applyPairIter c d k s) c d

/-- C5 counterexample: on the freshly generated fallback board — an Absent
pair whose endpoints both have `remainingConnections = 2` — four primary
cycle applications do not return the pair to Absent and do not restore the
budgets: they leave two count-1 bridges on the pair and both budgets at 0. -/
theorem four_applications_counterexample :
    Reachable (mkInitialState fallbackBoard) ∧
      pairBridgeCount (mkInitialState fallbackBoard).bridges (0, 0) (1, 0) = 0 ∧
      ((mkInitialState fallbackBoard).board.map fun p => p.remainingConnections) =
        [2, 2] ∧
      pairBridgeCount
          (applyPairIter (0, 0) (1, 0) 4 (mkInitialState fallbackBoard)).bridges
          (0, 0) (1, 0) = 2 ∧
      ((applyPairIter (0, 0) (1, 0) 4 (mkInitialState fallbackBoard)).board.map
          fun p => p.remainingConnections) = [0, 0] := by
  have h0 : Reachable (mkInitialState fallbackBoard) := by
    have h := Reachable.init (List.replicate 100 badChoice) (by decide)
      (by decide)
    rwa [show generateValidPuzzle (List.replicate 100 badChoice) = fallbackBoard
      from by decide] at h
  exact ⟨h0, by decide, by decide, by decide, by decide⟩

/-- Subtract `m` from the budget of every island at coordinates `c` or
`d` (the cumulative effect of `m` single placements on that pair). -/
def decBudget (c d : Int × Int) (m : Int) (board : GameBoard) : GameBoard :=
  board.map fun p =>
    if (p.x, p.y) = c ∨ (p.x, p.y) = d then
      { p with remainingConnections := p.remainingConnections - m }
    else p

/-- The bridge created by the `j`-th successful placement on the pair
`(a, b)` (counting from 0): its stored endpoint snapshots carry the budgets
current at creation time. -/
def freshPairBridge (a b : Point) (nid : Nat) (j : Nat) : Bridge :=
  { id := nid + j
    start := { a with remainingConnections := a.remainingConnections - j }
    stop := { b with remainingConnections := b.remainingConnections - j }
    count := 1
    isVertical := a.x = b.x }

/-- No island of `board`, other than those sitting at the endpoints'
coordinates, lies strictly between `a` and `b` on the branch the validator
selects.  Depends only on coordinates, so it is stable under budget
updates. -/
def NoThirdBetween (a b : Point) (board : GameBoard) : Prop :=
  ∀ p ∈ board, (p.x, p.y) ≠ (a.x, a.y) → (p.x, p.y) ≠ (b.x, b.y) →
    (a.x = b.x → ¬ (p.x = a.x ∧ min a.y b.y < p.y ∧ p.y < max a.y b.y)) ∧
    (a.x ≠ b.x → ¬ (p.y = a.y ∧ min a.x b.x < p.x ∧ p.x < max a.x b.x))

/-- A found island sits at the looked-up coordinates. -/
lemma findIsland_coords {board : GameBoard} {c : Int × Int} {a : Point}
    (h : findIsland board c = some a) : a.x = c.1 ∧ a.y = c.2 := by
  have := List.find?_some h
  simpa using this

/-- A found island is a member of the board. -/
lemma findIsland_mem {board : GameBoard} {c : Int × Int} {a : Point}
    (h : findIsland board c = some a) : a ∈ board :=
  List.mem_of_find?_eq_some h

/-- Coordinates identify islands on a coordinate-distinct board. -/
lemma DistinctCoords.coords_inj {board : GameBoard} (h : DistinctCoords board)
    {p q : Point} (hp : p ∈ board) (hq : q ∈ board)
    (hxy : (p.x, p.y) = (q.x, q.y)) : p = q := by
  by_contra hne
  exact (h.forall (fun _ _ hne' => (hne' ·.symm)) hp hq hne) hxy

/-- Island lookup commutes with a coordinate-preserving board map. -/
lemma findIsland_map (board : GameBoard) (f : Point → Point) (c : Int × Int)
    (hf : ∀ p, (f p).x = p.x ∧ (f p).y = p.y) :
    findIsland (board.map f) c = (findIsland board c).map f := by
  induction board with
  | nil => rfl
  | cons p rest ih =>
      show List.find? _ (f p :: rest.map f) = _
      rcases hf p with ⟨hx, hy⟩
      by_cases hc : p.x = c.1 ∧ p.y = c.2
      · rw [List.find?_cons_of_pos _ (by simpa [hx, hy] using hc)]
        unfold findIsland
        rw [List.find?_cons_of_pos _ (by simpa using hc)]
        rfl
      · rw [List.find?_cons_of_neg _ (by simpa [hx, hy] using hc)]
        unfold findIsland at ih ⊢
        rw [List.find?_cons_of_neg _ (by simpa using hc)]
        exact ih

/-- Coordinate distinctness survives a coordinate-preserving board map. -/
lemma DistinctCoords.map_coords {board : GameBoard} (h : DistinctCoords board)
    (f : Point → Point) (hf : ∀ p, (f p).x = p.x ∧ (f p).y = p.y) :
    DistinctCoords (board.map f) := by
  rw [DistinctCoords, List.pairwise_map]
  refine h.imp_of_mem ?_
  intro p q _ _ hne
  rcases hf p with ⟨hpx, hpy⟩
  rcases hf q with ⟨hqx, hqy⟩
  rw [hpx, hpy, hqx, hqy]
  exact hne

/-- `NoThirdBetween` survives a coordinate-preserving board map and the
replacement of the endpoints by islands at the same coordinates. -/
lemma NoThirdBetween.map_endpoints {a b : Point} {board : GameBoard}
    (h : NoThirdBetween a b board) (f : Point → Point)
    (hf : ∀ p, (f p).x = p.x ∧ (f p).y = p.y)
    (a' b' : Point) (hax : a'.x = a.x) (hay : a'.y = a.y)
    (hbx : b'.x = b.x) (hby : b'.y = b.y) :
    NoThirdBetween a' b' (board.map f) := by
  intro q hq hqa hqb
  rcases List.mem_map.mp hq with ⟨p, hp, rfl⟩
  rcases hf p with ⟨hpx, hpy⟩
  have := h p hp (by rwa [hax, hay, hpx, hpy] at hqa) (by rwa [hbx, hby, hpx, hpy] at hqb)
  rw [hax, hay, hbx, hby, hpx, hpy]
  exact this

/-- The validator accepts an aligned, unblocked pair with budgets left. -/
lemma isValidConnection_eq_true {a b : Point} {board : GameBoard}
    (hdc : DistinctCoords board) (ha : a ∈ board) (hb : b ∈ board)
    (hax : a.x = b.x ∨ a.y = b.y)
    (hra : 0 < a.remainingConnections) (hrb : 0 < b.remainingConnections)
    (hblock : NoThirdBetween a b board) :
    isValidConnection a b board = true := by
  unfold isValidConnection
  rw [if_neg (by rcases hax with h | h <;> simp [h])]
  rw [if_neg (by omega)]
  rw [Bool.not_eq_eq_eq_not, Bool.not_true, List.any_eq_false]
  intro p hp
  by_cases hpe : p = a ∨ p = b
  · rw [if_pos hpe]
    exact Bool.false_ne_true
  · push_neg at hpe
    have hca : (p.x, p.y) ≠ (a.x, a.y) := fun hc => hpe.1 (hdc.coords_inj hp ha hc)
    have hcb : (p.x, p.y) ≠ (b.x, b.y) := fun hc => hpe.2 (hdc.coords_inj hp hb hc)
    rw [if_neg (by simp [hpe.1, hpe.2])]
    have hbl := hblock p hp hca hcb
    by_cases hx : a.x = b.x
    · rw [if_pos hx, decide_eq_true_eq]
      exact hbl.1 hx
    · rw [if_neg hx, decide_eq_true_eq]
      exact hbl.2 hx

/-- The validator rejects as soon as one budget is spent. -/
lemma isValidConnection_eq_false {a b : Point} (board : GameBoard)
    (h : a.remainingConnections ≤ 0 ∨ b.remainingConnections ≤ 0) :
    isValidConnection a b board = false := by
  unfold isValidConnection
  by_cases hax : a.x ≠ b.x ∧ a.y ≠ b.y
  · rw [if_pos hax]
  · rw [if_neg hax, if_pos h]

/-- One successful primary-cycle application on the pair at `c`, `d`:
appends a fresh single bridge carrying the current endpoint records as
snapshots, and decrements both endpoints' budgets. -/
lemma applyPairAt_add (s : GameState) (c d : Int × Int) (a b : Point)
    (hfa : findIsland s.board c = some a) (hfb : findIsland s.board d = some b)
    (hdc : DistinctCoords s.board)
    (hne : (a.x, a.y) ≠ (b.x, b.y))
    (hax : a.x = b.x ∨ a.y = b.y)
    (hblock : NoThirdBetween a b s.board)
    (hnm : ∀ br ∈ s.bridges,
        ¬ ((br.start = a ∧ br.stop = b) ∨ (br.start = b ∧ br.stop = a)))
    (hra : 0 < a.remainingConnections) (hrb : 0 < b.remainingConnections) :
    applyPairAt s c d =
      { board := decBudget c d 1 s.board
        bridges := s.bridges ++ [{ id := s.nextId, start := a, stop := b, count := 1,
                                   isVertical := a.x = b.x }]
        nextId := s.nextId + 1 } := by
  have hba : b ≠ a := by
    intro h
    exact hne (by rw [h])
  unfold applyPairAt
  rw [hfa, hfb]
  show handlePointClick s a b = _
  unfold handlePointClick
  rw [if_neg hba,
    if_pos (isValidConnection_eq_true hdc (findIsland_mem hfa) (findIsland_mem hfb)
      hax hra hrb hblock)]
  unfold addOrUpdateBridge
  rw [addBridgeAux_no_match a b s.nextId s.bridges hnm]
  rcases findIsland_coords hfa with ⟨hax1, hay1⟩
  rcases findIsland_coords hfb with ⟨hbx1, hby1⟩
  have hboard : updatePointConnections s.board a b 1 = decBudget c d 1 s.board := by
    unfold updatePointConnections decBudget
    refine List.map_congr_left ?_
    intro p _
    have hiff : ((p.x = a.x ∧ p.y = a.y) ∨ (p.x = b.x ∧ p.y = b.y)) ↔
        ((p.x, p.y) = c ∨ (p.x, p.y) = d) := by
      simp [Prod.ext_iff, hax1, hay1, hbx1, hby1]
    exact if_congr hiff rfl rfl
  show GameState.mk (updatePointConnections s.board a b 1)
      (s.bridges ++ [{ id := s.nextId, start := a, stop := b, count := 1,
                       isVertical := decide (a.x = b.x) }]) (s.nextId + 1) = _
  rw [hboard]

/-- A primary-cycle application on a pair with a spent budget is a no-op. -/
lemma applyPairAt_spent (s : GameState) (c d : Int × Int) (a b : Point)
    (hfa : findIsland s.board c = some a) (hfb : findIsland s.board d = some b)
    (hr : a.remainingConnections ≤ 0 ∨ b.remainingConnections ≤ 0) :
    applyPairAt s c d = s := by
  unfold applyPairAt
  rw [hfa, hfb]
  show handlePointClick s a b = s
  unfold handlePointClick
  by_cases hba : b = a
  · rw [if_pos hba]
  · rw [if_neg hba]
    rw [if_neg (by rw [isValidConnection_eq_false s.board hr]; exact Bool.false_ne_true)]

/-- Subtracting a zero budget change is the identity. -/
lemma decBudget_zero (c d : Int × Int) (board : GameBoard) :
    decBudget c d 0 board = board := by
  unfold decBudget
  have h : ∀ p ∈ board,
      (if (p.x, p.y) = c ∨ (p.x, p.y) = d then
        { p with remainingConnections := p.remainingConnections - 0 }
      else p) = p := by
    intro p _
    split
    · obtain ⟨v, x, y, bh, bv, r⟩ := p
      simp
    · rfl
  rw [List.map_congr_left h]
  simp

/-- Budget decrements on the same pair accumulate. -/
lemma decBudget_one_add (c d : Int × Int) (m : Int) (board : GameBoard) :
    decBudget c d 1 (decBudget c d m board) = decBudget c d (m + 1) board := by
  unfold decBudget
  rw [List.map_map]
  refine List.map_congr_left ?_
  intro p _
  by_cases h : (p.x, p.y) = c ∨ (p.x, p.y) = d
  · simp only [Function.comp_apply, if_pos h, Point.mk.injEq, true_and]
    ring
  · simp only [Function.comp_apply, if_neg h, if_neg h]

/-- The budget-decrement map preserves coordinates. -/
lemma decBudget_fun_coords (c d : Int × Int) (m : Int) :
    ∀ p : Point,
      ((if (p.x, p.y) = c ∨ (p.x, p.y) = d then
          { p with remainingConnections := p.remainingConnections - m }
        else p) : Point).x = p.x ∧
      ((if (p.x, p.y) = c ∨ (p.x, p.y) = d then
          { p with remainingConnections := p.remainingConnections - m }
        else p) : Point).y = p.y := by
  intro p
  by_cases h : (p.x, p.y) = c ∨ (p.x, p.y) = d
  · rw [if_pos h]
    exact ⟨rfl, rfl⟩
  · rw [if_neg h]
    exact ⟨rfl, rfl⟩

/-- Exact description of `k` primary-cycle applications to an initially
Absent pair: with `m = min (min budgets) k`, the board's two endpoints lose
`m` budget each, and exactly `m` fresh single bridges pile up on the pair,
each storing the endpoint snapshots current at its creation. -/
lemma applyPairIter_spec (s : GameState) (c d : Int × Int) (a b : Point)
    (hfa : findIsland s.board c = some a) (hfb : findIsland s.board d = some b)
    (hdc : DistinctCoords s.board)
    (hne : (a.x, a.y) ≠ (b.x, b.y))
    (hax : a.x = b.x ∨ a.y = b.y)
    (hblock : NoThirdBetween a b s.board)
    (habs : ∀ br ∈ s.bridges,
        ¬ (((br.start.x, br.start.y) = c ∧ (br.stop.x, br.stop.y) = d) ∨
           ((br.start.x, br.start.y) = d ∧ (br.stop.x, br.stop.y) = c)))
    (hra : 0 ≤ a.remainingConnections) (hrb : 0 ≤ b.remainingConnections) :
    ∀ k : Nat,
      applyPairIter c d k s =
        { board := decBudget c d
            (min (min a.remainingConnections b.remainingConnections) (k : Int)) s.board
          bridges := s.bridges ++
            (List.range
              (min (min a.remainingConnections b.remainingConnections) (k : Int)).toNat).map
              (freshPairBridge a b s.nextId)
          nextId := s.nextId +
            (min (min a.remainingConnections b.remainingConnections) (k : Int)).toNat } := by
  have hr0 : 0 ≤ min a.remainingConnections b.remainingConnections := le_min hra hrb
  have hca : (a.x, a.y) = c := by
    rcases findIsland_coords hfa with ⟨h1, h2⟩
    rw [h1, h2]
  have hcb : (b.x, b.y) = d := by
    rcases findIsland_coords hfb with ⟨h1, h2⟩
    rw [h1, h2]
  intro k
  induction k with
  | zero =>
      rw [show ((0 : Nat) : Int) = 0 from rfl, min_eq_right hr0, decBudget_zero]
      show s = _
      simp [applyPairIter]
  | succ k ih =>
      rw [show applyPairIter c d (k + 1) s = applyPairAt (applyPairIter c d k s) c d
        from rfl, ih]
      have hm0 : 0 ≤ min (min a.remainingConnections b.remainingConnections) (k : Int) := by
        exact le_min hr0 (by positivity)
      generalize hmdef :
        min (min a.remainingConnections b.remainingConnections) (k : Int) = m at *
      have hfcoords := decBudget_fun_coords c d m
      have hfa' :
          findIsland (decBudget c d m s.board) c =
            some { a with remainingConnections := a.remainingConnections - m } := by
        unfold decBudget
        rw [findIsland_map s.board _ c hfcoords, hfa, Option.map_some']
        rw [if_pos (Or.inl hca)]
      have hfb' :
          findIsland (decBudget c d m s.board) d =
            some { b with remainingConnections := b.remainingConnections - m } := by
        unfold decBudget
        rw [findIsland_map s.board _ d hfcoords, hfb, Option.map_some']
        rw [if_pos (Or.inr hcb)]
      have hdc' : DistinctCoords (decBudget c d m s.board) :=
        hdc.map_coords _ hfcoords
      have hblock' : NoThirdBetween
          { a with remainingConnections := a.remainingConnections - m }
          { b with remainingConnections := b.remainingConnections - m }
          (decBudget c d m s.board) :=
        hblock.map_endpoints _ hfcoords _ _ rfl rfl rfl rfl
      by_cases hk : (k : Int) < min a.remainingConnections b.remainingConnections
      · -- both budgets still positive: this application adds a bridge
        have hmk : m = (k : Int) := by
          rw [← hmdef]
          exact min_eq_right (le_of_lt hk)
        have hra' : 0 <
            ({ a with remainingConnections := a.remainingConnections - m } :
              Point).remainingConnections := by
          show 0 < a.remainingConnections - m
          have : min a.remainingConnections b.remainingConnections ≤
              a.remainingConnections := min_le_left _ _
          omega
        have hrb' : 0 <
            ({ b with remainingConnections := b.remainingConnections - m } :
              Point).remainingConnections := by
          show 0 < b.remainingConnections - m
          have : min a.remainingConnections b.remainingConnections ≤
              b.remainingConnections := min_le_right _ _
          omega
        have hnm' : ∀ br ∈ s.bridges ++
            (List.range m.toNat).map (freshPairBridge a b s.nextId),
            ¬ ((br.start = { a with remainingConnections := a.remainingConnections - m } ∧
                  br.stop = { b with remainingConnections := b.remainingConnections - m }) ∨
               (br.start = { b with remainingConnections := b.remainingConnections - m } ∧
                  br.stop = { a with remainingConnections := a.remainingConnections - m })) := by
          intro br hbr
          rcases List.mem_append.mp hbr with hold | hnew
          · intro hmatch
            refine habs br hold ?_
            rcases hmatch with ⟨h1, h2⟩ | ⟨h1, h2⟩
            · exact Or.inl ⟨by rw [h1]; exact hca, by rw [h2]; exact hcb⟩
            · exact Or.inr ⟨by rw [h1]; exact hcb, by rw [h2]; exact hca⟩
          · rcases List.mem_map.mp hnew with ⟨j, hj, rfl⟩
            rw [List.mem_range] at hj
            intro hmatch
            rcases hmatch with ⟨h1, h2⟩ | ⟨h1, h2⟩
            · have : a.remainingConnections - (j : Int) =
                  a.remainingConnections - m := congrArg Point.remainingConnections h1
              have hjm : (j : Int) < m := by
                omega
              omega
            · -- the snapshot of `a` cannot equal the record at `d`
              have hx : a.x = b.x := by
                simpa [freshPairBridge] using congrArg Point.x h1
              have hy : a.y = b.y := by
                simpa [freshPairBridge] using congrArg Point.y h1
              exact hne (by rw [hx, hy])
        have hstep := applyPairAt_add
          { board := decBudget c d m s.board
            bridges := s.bridges ++ (List.range m.toNat).map (freshPairBridge a b s.nextId)
            nextId := s.nextId + m.toNat }
          c d _ _ hfa' hfb' hdc' (by simpa using hne) (by simpa using hax) hblock' hnm'
          hra' hrb'
        rw [hstep, GameState.mk.injEq]
        have hcast : ((k + 1 : Nat) : Int) = (k : Int) + 1 := by push_cast; ring
        have hmin1 : min (min a.remainingConnections b.remainingConnections)
            ((k : Int) + 1) = m + 1 := by
          rw [hmk]
          exact min_eq_right (Int.add_one_le_iff.mpr hk)
        have htn : (m + 1).toNat = m.toNat + 1 := by omega
        refine ⟨?_, ?_, ?_⟩
        · show decBudget c d 1 (decBudget c d m s.board) = _
          rw [decBudget_one_add, hcast, hmin1]
        · show (s.bridges ++ (List.range m.toNat).map (freshPairBridge a b s.nextId)) ++
              [{ id := s.nextId + m.toNat,
                 start := { a with remainingConnections := a.remainingConnections - m },
                 stop := { b with remainingConnections := b.remainingConnections - m },
                 count := 1, isVertical := decide (a.x = b.x) }] = _
          rw [hcast, hmin1, htn, List.range_succ, List.map_append, List.append_assoc]
          refine congrArg _ (congrArg _ ?_)
          show _ = [freshPairBridge a b s.nextId m.toNat]
          unfold freshPairBridge
          rw [List.cons.injEq]
          refine ⟨?_, rfl⟩
          rw [Bridge.mk.injEq]
          refine ⟨rfl, ?_, ?_, rfl, rfl⟩
          · rw [Point.mk.injEq]
            exact ⟨rfl, rfl, rfl, rfl, rfl, by rw [Int.toNat_of_nonneg hm0]⟩
          · rw [Point.mk.injEq]
            exact ⟨rfl, rfl, rfl, rfl, rfl, by rw [Int.toNat_of_nonneg hm0]⟩
        · show s.nextId + m.toNat + 1 = _
          rw [hcast, hmin1, htn]
          omega
      · -- one budget is spent: this application is a no-op
        push_neg at hk
        have hmk : m = min a.remainingConnections b.remainingConnections := by
          rw [← hmdef]
          exact min_eq_left hk
        have hspent :
            ({ a with remainingConnections := a.remainingConnections - m } :
                Point).remainingConnections ≤ 0 ∨
            ({ b with remainingConnections := b.remainingConnections - m } :
                Point).remainingConnections ≤ 0 := by
          rcases min_choice a.remainingConnections b.remainingConnections with h | h
          · left
            show a.remainingConnections - m ≤ 0
            omega
          · right
            show b.remainingConnections - m ≤ 0
            omega
        rw [applyPairAt_spent _ c d _ _ hfa' hfb' hspent]
        have hcast : ((k + 1 : Nat) : Int) = (k : Int) + 1 := by push_cast; ring
        have hmin1 : min (min a.remainingConnections b.remainingConnections)
            ((k : Int) + 1) = m := by
          rw [hmk]
          exact min_eq_left (le_trans hk (by omega))
        rw [hcast, hmin1]

instance (a b : Point) (board : GameBoard) : Decidable (NoThirdBetween a b board) := by
  unfold NoThirdBetween; infer_instance

instance (board : GameBoard) : Decidable (DistinctCoords board) := by
  unfold DistinctCoords; infer_instance

/-- C5 amended: four primary-cycle applications to an Absent pair whose
endpoints both have at least 2 budget never return the pair to Absent and
never restore the budgets; with `m = min (min of the two budgets) 4 ≥ 2`,
they leave exactly `m` count-1 bridges on the pair and decrease both
endpoints' budgets by `m`. -/
theorem four_applications_spec (s : GameState) (c d : Int × Int) (a b : Point)
    (hfa : findIsland s.board c = some a) (hfb : findIsland s.board d = some b)
    (hdc : DistinctCoords s.board)
    (hne : (a.x, a.y) ≠ (b.x, b.y))
    (hax : a.x = b.x ∨ a.y = b.y)
    (hblock : NoThirdBetween a b s.board)
    (habs : pairBridgeCount s.bridges c d = 0)
    (hra : 2 ≤ a.remainingConnections) (hrb : 2 ≤ b.remainingConnections) :
    2 ≤ min (min a.remainingConnections b.remainingConnections) 4 ∧
      pairBridgeCount (applyPairIter c d 4 s).bridges c d =
        (min (min a.remainingConnections b.remainingConnections) 4).toNat ∧
      findIsland (applyPairIter c d 4 s).board c =
        some { a with remainingConnections := a.remainingConnections -
                        min (min a.remainingConnections b.remainingConnections) 4 } ∧
      findIsland (applyPairIter c d 4 s).board d =
        some { b with remainingConnections := b.remainingConnections -
                        min (min a.remainingConnections b.remainingConnections) 4 } ∧
      findIsland (applyPairIter c d 4 s).board c ≠ some a ∧
      findIsland (applyPairIter c d 4 s).board d ≠ some b ∧
      pairBridgeCount (applyPairIter c d 4 s).bridges c d ≠ 0 := by
  have hca : (a.x, a.y) = c := by
    rcases findIsland_coords hfa with ⟨h1, h2⟩
    rw [h1, h2]
  have hcb : (b.x, b.y) = d := by
    rcases findIsland_coords hfb with ⟨h1, h2⟩
    rw [h1, h2]
  have habs' : ∀ br ∈ s.bridges,
      ¬ (((br.start.x, br.start.y) = c ∧ (br.stop.x, br.stop.y) = d) ∨
         ((br.start.x, br.start.y) = d ∧ (br.stop.x, br.stop.y) = c)) := by
    intro br hbr
    have := List.filter_eq_nil.mp (List.length_eq_zero.mp habs) br hbr
    simpa using this
  have hspec := applyPairIter_spec s c d a b hfa hfb hdc hne hax hblock habs'
    (by omega) (by omega) 4
  have hc4 : ((4 : Nat) : Int) = 4 := by norm_num
  rw [hc4] at hspec
  set m := min (min a.remainingConnections b.remainingConnections) 4 with hmdef
  have hm2 : 2 ≤ m := le_min (le_min hra hrb) (by norm_num)
  have hm0 : 0 ≤ m := by omega
  have hcount : pairBridgeCount (applyPairIter c d 4 s).bridges c d = m.toNat := by
    rw [hspec]
    show pairBridgeCount
      (s.bridges ++ (List.range m.toNat).map (freshPairBridge a b s.nextId)) c d = _
    unfold pairBridgeCount
    rw [List.filter_append, List.length_append,
      List.length_eq_zero.mp habs, List.length_nil, Nat.zero_add]
    have hall : ∀ br ∈ (List.range m.toNat).map (freshPairBridge a b s.nextId),
        (decide (((br.start.x, br.start.y) = c ∧ (br.stop.x, br.stop.y) = d) ∨
          ((br.start.x, br.start.y) = d ∧ (br.stop.x, br.stop.y) = c))) = true := by
      intro br hbr
      rcases List.mem_map.mp hbr with ⟨j, _, rfl⟩
      simp only [decide_eq_true_eq]
      exact Or.inl ⟨by simpa [freshPairBridge] using hca,
        by simpa [freshPairBridge] using hcb⟩
    rw [List.filter_eq_self.mpr hall, List.length_map, List.length_range]
  have hfc : findIsland (applyPairIter c d 4 s).board c =
      some { a with remainingConnections := a.remainingConnections - m } := by
    rw [hspec]
    show findIsland (decBudget c d m s.board) c = _
    unfold decBudget
    rw [findIsland_map s.board _ c (decBudget_fun_coords c d m), hfa,
      Option.map_some']
    rw [if_pos (Or.inl hca)]
  have hfd : findIsland (applyPairIter c d 4 s).board d =
      some { b with remainingConnections := b.remainingConnections - m } := by
    rw [hspec]
    show findIsland (decBudget c d m s.board) d = _
    unfold decBudget
    rw [findIsland_map s.board _ d (decBudget_fun_coords c d m), hfb,
      Option.map_some']
    rw [if_pos (Or.inr hcb)]
  refine ⟨hm2, hcount, hfc, hfd, ?_, ?_, ?_⟩
  · rw [hfc]
    intro h
    have h2 := Option.some.injEq _ _ ▸ h
    have := congrArg Point.remainingConnections (Option.some.inj h)
    simp only at this
    omega
  · rw [hfd]
    intro h
    have := congrArg Point.remainingConnections (Option.some.inj h)
    simp only at this
    omega
  · rw [hcount]
    omega

/-- Witness for C5's amended claim: the fresh fallback state, whose pair
`(0,0)`–`(1,0)` has both budgets exactly `2`, so `m = 2`. -/
theorem four_applications_spec_witness :
    2 ≤ min (min islA.remainingConnections islB.remainingConnections) 4 ∧
      pairBridgeCount
          (applyPairIter (0, 0) (1, 0) 4 (mkInitialState fallbackBoard)).bridges
          (0, 0) (1, 0) =
        (min (min islA.remainingConnections islB.remainingConnections) 4).toNat ∧
      findIsland (applyPairIter (0, 0) (1, 0) 4 (mkInitialState fallbackBoard)).board
          (0, 0) =
        some { islA with remainingConnections := islA.remainingConnections -
                           min (min islA.remainingConnections islB.remainingConnections) 4 } ∧
      findIsland (applyPairIter (0, 0) (1, 0) 4 (mkInitialState fallbackBoard)).board
          (1, 0) =
        some { islB with remainingConnections := islB.remainingConnections -
                           min (min islA.remainingConnections islB.remainingConnections) 4 } ∧
      findIsland (applyPairIter (0, 0) (1, 0) 4 (mkInitialState fallbackBoard)).board
          (0, 0) ≠ some islA ∧
      findIsland (applyPairIter (0, 0) (1, 0) 4 (mkInitialState fallbackBoard)).board
          (1, 0) ≠ some islB ∧
      pairBridgeCount
          (applyPairIter (0, 0) (1, 0) 4 (mkInitialState fallbackBoard)).bridges
          (0, 0) (1, 0) ≠ 0 :=
  four_applications_spec (mkInitialState fallbackBoard) (0, 0) (1, 0) islA islB
    (by decide) (by decide) (by decide) (by decide) (by decide) (by decide)
    (by decide) (by decide) (by decide)

/-! ## C1: the ledger invariant on all reachable states -/

lemma incidentSum_append (l1 l2 : List Bridge) (p : Point) :
    incidentSum (l1 ++ l2) p = incidentSum l1 p + incidentSum l2 p := by
  unfold incidentSum
  rw [List.map_append, List.sum_append]

lemma incidentSum_cons (br : Bridge) (l : List Bridge) (p : Point) :
    incidentSum (br :: l) p =
      (if incident br p then br.count else 0) + incidentSum l p := by
  unfold incidentSum
  rw [List.map_cons, List.sum_cons]

lemma incidentSum_nil (p : Point) : incidentSum [] p = 0 := rfl

/-- Incidence only looks at the island's coordinates. -/
lemma incidentSum_congr_coords (l : List Bridge) {p q : Point}
    (hx : p.x = q.x) (hy : p.y = q.y) : incidentSum l p = incidentSum l q := by
  unfold incidentSum
  refine congrArg _ (List.map_congr_left ?_)
  intro br _
  unfold incident
  exact if_congr (by rw [hx, hy]) rfl rfl

/-- Split a list at its first element satisfying a decidable predicate. -/
lemma exists_first_split {α : Type} (p : α → Prop) [DecidablePred p]
    (l : List α) (h : ∃ x ∈ l, p x) :
    ∃ l1 x l2, l = l1 ++ x :: l2 ∧ p x ∧ ∀ y ∈ l1, ¬ p y := by
  induction l with
  | nil => simp at h
  | cons a t ih =>
      by_cases ha : p a
      · exact ⟨[], a, t, rfl, ha, by simp⟩
      · have ht : ∃ x ∈ t, p x := by
          rcases h with ⟨x, hx, hpx⟩
          rcases List.mem_cons.mp hx with rfl | hx
          · exact absurd hpx ha
          · exact ⟨x, hx, hpx⟩
        rcases ih ht with ⟨l1, x, l2, rfl, hpx, hl1⟩
        refine ⟨a :: l1, x, l2, rfl, hpx, ?_⟩
        intro y hy
        rcases List.mem_cons.mp hy with rfl | hy
        · exact ha
        · exact hl1 y hy

/-- `addBridgeAux` at a list whose first matching bridge is `br`: remove it
when its count is already 2, upgrade it otherwise. -/
lemma addBridgeAux_match (a b : Point) (nid : Nat) (l1 : List Bridge)
    (br : Bridge) (l2 : List Bridge)
    (h1 : ∀ x ∈ l1, ¬ ((x.start = a ∧ x.stop = b) ∨ (x.start = b ∧ x.stop = a)))
    (hbr : (br.start = a ∧ br.stop = b) ∨ (br.start = b ∧ br.stop = a)) :
    addBridgeAux a b nid (l1 ++ br :: l2) =
      if br.count ≥ 2 then (l1 ++ l2, -2)
      else (l1 ++ ({ br with count := 2 } :: l2), 1) := by
  induction l1 with
  | nil =>
      show addBridgeAux a b nid (br :: l2) = _
      unfold addBridgeAux
      rw [if_pos hbr]
      split <;> rfl
  | cons x t ih =>
      show addBridgeAux a b nid (x :: (t ++ br :: l2)) = _
      unfold addBridgeAux
      rw [if_neg (h1 x (List.mem_cons_self x t))]
      rw [ih fun y hy => h1 y (List.mem_cons_of_mem x hy)]
      split <;> rfl

/-- Generated boards have pairwise distinct island coordinates. -/
lemma generate_distinctCoords (cs : List AttemptChoices)
    (hwf : ∀ c ∈ cs, WFChoices c) :
    DistinctCoords (generateValidPuzzle cs) := by
  unfold generateValidPuzzle
  cases hfs : cs.findSome? attemptBuild with
  | none => decide
  | some b =>
      rcases List.exists_of_findSome?_eq_some hfs with ⟨c, hc, hcb⟩
      have hnd : c.positions.Nodup := (hwf c hc).1
      have hmk : DistinctCoords (mkIslands c.positions) := by
        unfold DistinctCoords mkIslands
        rw [List.pairwise_map]
        refine hnd.imp_of_mem ?_
        intro q1 q2 _ _ hne
        simpa using hne
      unfold attemptBuild at hcb
      simp only at hcb
      split at hcb
      · exact absurd hcb (by simp)
      · rw [Option.some.injEq] at hcb
        subst hcb
        have h1 : DistinctCoords (assignValues (mkIslands c.positions)
            (augmentFold ((mkIslands c.positions).length / 2) c.extraEdges
              (mstFold c.mstEdges (initComps (mkIslands c.positions))).2)) := by
          unfold assignValues
          exact hmk.map_coords _ fun p => ⟨rfl, rfl⟩
        exact h1.map_coords _ fun p => ⟨rfl, rfl⟩

/-- The inductive invariant carried through all reachable states: distinct
island coordinates, bridge counts in `{1, 2}`, fresh and pairwise distinct
bridge ids, and the ledger equation. -/
def Inv (s : GameState) : Prop :=
  DistinctCoords s.board ∧
    (∀ br ∈ s.bridges, br.count = 1 ∨ br.count = 2) ∧
    (s.bridges.map fun br => br.id).Nodup ∧
    (∀ br ∈ s.bridges, br.id < s.nextId) ∧
    LedgerInv s

/-- Freshly generated states satisfy the invariant. -/
lemma inv_init (cs : List AttemptChoices) (hwf : ∀ c ∈ cs, WFChoices c) :
    Inv (mkInitialState (generateValidPuzzle cs)) := by
  refine ⟨generate_distinctCoords cs hwf, by simp [mkInitialState],
    by simp [mkInitialState], by simp [mkInitialState], ?_⟩
  intro p hp
  show p.remainingConnections = p.value - incidentSum [] p
  rw [incidentSum_nil, sub_zero]
  exact generate_rem_eq_value cs p hp

/-- Unfolding `addOrUpdateBridge` once the list transformation is known. -/
lemma addOrUpdateBridge_eq (s : GameState) (a b : Point) (L : List Bridge)
    (ch : Int) (h : addBridgeAux a b s.nextId s.bridges = (L, ch)) :
    addOrUpdateBridge s a b =
      { board := updatePointConnections s.board a b ch, bridges := L,
        nextId := s.nextId + 1 } := by
  unfold addOrUpdateBridge
  rw [h]

/-- The board update of the primary cycle preserves coordinates. -/
lemma updatePointConnections_fun_coords (a b : Point) (ch : Int) :
    ∀ p : Point,
      ((if (p.x = a.x ∧ p.y = a.y) ∨ (p.x = b.x ∧ p.y = b.y) then
          { p with remainingConnections := p.remainingConnections - ch }
        else p) : Point).x = p.x ∧
      ((if (p.x = a.x ∧ p.y = a.y) ∨ (p.x = b.x ∧ p.y = b.y) then
          { p with remainingConnections := p.remainingConnections - ch }
        else p) : Point).y = p.y := by
  intro p
  by_cases h : (p.x = a.x ∧ p.y = a.y) ∨ (p.x = b.x ∧ p.y = b.y)
  · rw [if_pos h]; exact ⟨rfl, rfl⟩
  · rw [if_neg h]; exact ⟨rfl, rfl⟩

/-- A bridge whose stored endpoints are `a` and `b` (in either orientation)
is incident to exactly the islands at the coordinates of `a` or `b`. -/
lemma incident_match_iff {br : Bridge} {a b : Point}
    (hbr : (br.start = a ∧ br.stop = b) ∨ (br.start = b ∧ br.stop = a))
    (p : Point) :
    incident br p ↔ ((p.x = a.x ∧ p.y = a.y) ∨ (p.x = b.x ∧ p.y = b.y)) := by
  rcases hbr with ⟨h1, h2⟩ | ⟨h1, h2⟩
  · unfold incident
    rw [h1, h2]
    constructor
    · rintro (⟨h3, h4⟩ | ⟨h3, h4⟩)
      · exact Or.inl ⟨h3.symm, h4.symm⟩
      · exact Or.inr ⟨h3.symm, h4.symm⟩
    · rintro (⟨h3, h4⟩ | ⟨h3, h4⟩)
      · exact Or.inl ⟨h3.symm, h4.symm⟩
      · exact Or.inr ⟨h3.symm, h4.symm⟩
  · unfold incident
    rw [h1, h2]
    constructor
    · rintro (⟨h3, h4⟩ | ⟨h3, h4⟩)
      · exact Or.inr ⟨h3.symm, h4.symm⟩
      · exact Or.inl ⟨h3.symm, h4.symm⟩
    · rintro (⟨h3, h4⟩ | ⟨h3, h4⟩)
      · exact Or.inr ⟨h3.symm, h4.symm⟩
      · exact Or.inl ⟨h3.symm, h4.symm⟩

/-- Ledger bookkeeping for a primary-cycle board update: if the incidence
sums change by exactly `ch` at the islands whose budgets the update lowers
by `ch`, the ledger equation survives. -/
lemma ledger_update (board : GameBoard) (bridges bridges' : List Bridge)
    (a b : Point) (ch : Int)
    (hL : ∀ p ∈ board, p.remainingConnections = p.value - incidentSum bridges p)
    (hdelta : ∀ p ∈ board, incidentSum bridges' p = incidentSum bridges p +
        (if (p.x = a.x ∧ p.y = a.y) ∨ (p.x = b.x ∧ p.y = b.y) then ch else 0)) :
    ∀ p' ∈ updatePointConnections board a b ch,
      p'.remainingConnections = p'.value - incidentSum bridges' p' := by
  intro p' hp'
  unfold updatePointConnections at hp'
  rcases List.mem_map.mp hp' with ⟨p, hp, rfl⟩
  have hL' := hL p hp
  have hdel := hdelta p hp
  by_cases hc : (p.x = a.x ∧ p.y = a.y) ∨ (p.x = b.x ∧ p.y = b.y)
  · rw [if_pos hc] at hdel ⊢
    show p.remainingConnections - ch = p.value -
      incidentSum bridges' { p with remainingConnections := p.remainingConnections - ch }
    rw [show incidentSum bridges'
        { p with remainingConnections := p.remainingConnections - ch } =
        incidentSum bridges' p from incidentSum_congr_coords bridges' rfl rfl, hdel]
    omega
  · rw [if_neg hc] at hdel ⊢
    rw [hdel]
    omega

/-- The primary cycle preserves the invariant. -/
lemma inv_addOrUpdate (s : GameState) (a b : Point) (hinv : Inv s) :
    Inv (addOrUpdateBridge s a b) := by
  obtain ⟨hdc, hcnt, hnodup, hlt, hledger⟩ := hinv
  by_cases hex : ∃ br ∈ s.bridges,
      ((br.start = a ∧ br.stop = b) ∨ (br.start = b ∧ br.stop = a))
  · -- some stored bridge matches: upgrade or remove the first one
    rcases exists_first_split _ s.bridges hex with ⟨l1, br, l2, hsplit, hPbr, hl1⟩
    have hbrmem : br ∈ s.bridges := by
      rw [hsplit]
      exact List.mem_append_right l1 (List.mem_cons_self br l2)
    have hmem1 : ∀ x : Bridge, x ∈ l1 → x ∈ s.bridges := by
      rw [hsplit]
      exact fun x h => List.mem_append_left _ h
    have hmem2 : ∀ x : Bridge, x ∈ l2 → x ∈ s.bridges := by
      rw [hsplit]
      exact fun x h => List.mem_append_right _ (List.mem_cons_of_mem br h)
    have hiff := incident_match_iff hPbr
    by_cases hge : br.count ≥ 2
    · -- count 2: remove the bridge, restore 2 to both endpoints
      have hbr2 : br.count = 2 := by
        rcases hcnt br hbrmem with h | h
        · omega
        · exact h
      have haux : addBridgeAux a b s.nextId s.bridges = (l1 ++ l2, -2) := by
        rw [hsplit, addBridgeAux_match a b s.nextId l1 br l2 hl1 hPbr, if_pos hge]
      rw [addOrUpdateBridge_eq s a b _ _ haux]
      refine ⟨hdc.map_coords _ (updatePointConnections_fun_coords a b (-2)), ?_, ?_, ?_, ?_⟩
      · intro x hx
        rcases List.mem_append.mp hx with h | h
        · exact hcnt x (hmem1 x h)
        · exact hcnt x (hmem2 x h)
      · have hsub : (l1 ++ l2).Sublist (l1 ++ br :: l2) :=
          (List.sublist_cons_self br l2).append_left l1
        have hns := hnodup
        rw [hsplit] at hns
        exact ((hsub.map _).nodup hns)
      · intro x hx
        refine Nat.lt_trans (hlt x ?_) (Nat.lt_succ_self _)
        rcases List.mem_append.mp hx with h | h
        · exact hmem1 x h
        · exact hmem2 x h
      · refine ledger_update s.board s.bridges _ a b (-2) hledger ?_
        intro p hp
        rw [hsplit, incidentSum_append, incidentSum_append, incidentSum_cons]
        by_cases hcond : (p.x = a.x ∧ p.y = a.y) ∨ (p.x = b.x ∧ p.y = b.y)
        · rw [if_pos ((hiff p).mpr hcond), if_pos hcond, hbr2]
          ring
        · rw [if_neg (fun hcontra => hcond ((hiff p).mp hcontra)), if_neg hcond]
          ring
    · -- count 1: upgrade it to 2
      have hbr1 : br.count = 1 := by
        rcases hcnt br hbrmem with h | h
        · exact h
        · omega
      have haux : addBridgeAux a b s.nextId s.bridges =
          (l1 ++ ({ br with count := 2 } :: l2), 1) := by
        rw [hsplit, addBridgeAux_match a b s.nextId l1 br l2 hl1 hPbr, if_neg hge]
      rw [addOrUpdateBridge_eq s a b _ _ haux]
      refine ⟨hdc.map_coords _ (updatePointConnections_fun_coords a b 1), ?_, ?_, ?_, ?_⟩
      · intro x hx
        rcases List.mem_append.mp hx with h | h
        · exact hcnt x (hmem1 x h)
        · rcases List.mem_cons.mp h with rfl | h
          · exact Or.inr rfl
          · exact hcnt x (hmem2 x h)
      · have : (l1 ++ ({ br with count := 2 } :: l2)).map (fun x => x.id) =
            s.bridges.map fun x => x.id := by
          rw [hsplit, List.map_append, List.map_append, List.map_cons, List.map_cons]
        rw [this]
        exact hnodup
      · intro x hx
        rcases List.mem_append.mp hx with h | h
        · exact Nat.lt_trans (hlt x (hmem1 x h)) (Nat.lt_succ_self _)
        · rcases List.mem_cons.mp h with rfl | h
          · exact Nat.lt_trans (hlt br hbrmem) (Nat.lt_succ_self _)
          · exact Nat.lt_trans (hlt x (hmem2 x h)) (Nat.lt_succ_self _)
      · refine ledger_update s.board s.bridges _ a b 1 hledger ?_
        intro p hp
        rw [hsplit, incidentSum_append, incidentSum_append, incidentSum_cons,
          incidentSum_cons]
        have hiff2 : incident { br with count := 2 } p ↔
            ((p.x = a.x ∧ p.y = a.y) ∨ (p.x = b.x ∧ p.y = b.y)) := by
          refine Iff.trans ?_ (hiff p)
          unfold incident
          exact Iff.rfl
        by_cases hcond : (p.x = a.x ∧ p.y = a.y) ∨ (p.x = b.x ∧ p.y = b.y)
        · rw [if_pos (hiff2.mpr hcond), if_pos ((hiff p).mpr hcond), if_pos hcond]
          simp only [hbr1]
          ring
        · rw [if_neg (fun hcontra => hcond (hiff2.mp hcontra)),
            if_neg (fun hcontra => hcond ((hiff p).mp hcontra)), if_neg hcond]
          ring
  · -- no stored bridge matches: append a fresh single bridge
    have hex' : ∀ br ∈ s.bridges,
        ¬ ((br.start = a ∧ br.stop = b) ∨ (br.start = b ∧ br.stop = a)) := by
      intro br hbr hP
      exact hex ⟨br, hbr, hP⟩
    rw [addOrUpdateBridge_eq s a b _ 1 (addBridgeAux_no_match a b s.nextId s.bridges hex')]
    refine ⟨hdc.map_coords _ (updatePointConnections_fun_coords a b 1), ?_, ?_, ?_, ?_⟩
    · intro x hx
      rcases List.mem_append.mp hx with h | h
      · exact hcnt x h
      · rw [List.mem_singleton] at h
        subst h
        exact Or.inl rfl
    · rw [List.map_append]
      refine List.Nodup.append hnodup (by simp) ?_
      intro x hx hx2
      rcases List.mem_map.mp hx with ⟨y, hy, rfl⟩
      rw [List.map_singleton, List.mem_singleton] at hx2
      exact absurd hx2 (Nat.ne_of_lt (hlt y hy))
    · intro x hx
      rcases List.mem_append.mp hx with h | h
      · exact Nat.lt_trans (hlt x h) (Nat.lt_succ_self _)
      · rw [List.mem_singleton] at h
        subst h
        exact Nat.lt_succ_self _
    · refine ledger_update s.board s.bridges _ a b 1 hledger ?_
      intro p hp
      rw [incidentSum_append, incidentSum_cons, incidentSum_nil]
      have hiffn : incident { id := s.nextId, start := a, stop := b, count := 1,
                              isVertical := decide (a.x = b.x) } p ↔
          ((p.x = a.x ∧ p.y = a.y) ∨ (p.x = b.x ∧ p.y = b.y)) :=
        incident_match_iff (Or.inl ⟨rfl, rfl⟩) p
      by_cases hcond : (p.x = a.x ∧ p.y = a.y) ∨ (p.x = b.x ∧ p.y = b.y)
      · rw [if_pos (hiffn.mpr hcond), if_pos hcond]
        show incidentSum s.bridges p + (1 + 0) = incidentSum s.bridges p + 1
        ring
      · rw [if_neg (fun hcontra => hcond (hiffn.mp hcontra)), if_neg hcond]
        ring

/-- Incidence written with the island's coordinates on the left, the form
appearing in `handleBridgeClick`'s board update. -/
lemma incident_flip_iff (br : Bridge) (p : Point) :
    incident br p ↔
      ((p.x = br.start.x ∧ p.y = br.start.y) ∨ (p.x = br.stop.x ∧ p.y = br.stop.y)) := by
  unfold incident
  constructor
  · rintro (⟨h1, h2⟩ | ⟨h1, h2⟩)
    · exact Or.inl ⟨h1.symm, h2.symm⟩
    · exact Or.inr ⟨h1.symm, h2.symm⟩
  · rintro (⟨h1, h2⟩ | ⟨h1, h2⟩)
    · exact Or.inl ⟨h1.symm, h2.symm⟩
    · exact Or.inr ⟨h1.symm, h2.symm⟩

/-- The board update of the reduction path preserves coordinates. -/
lemma clickUpdate_fun_coords (br : Bridge) :
    ∀ p : Point,
      ((if (p.x = br.start.x ∧ p.y = br.start.y) ∨
            (p.x = br.stop.x ∧ p.y = br.stop.y) then
          { p with remainingConnections := p.remainingConnections + 1 }
        else p) : Point).x = p.x ∧
      ((if (p.x = br.start.x ∧ p.y = br.start.y) ∨
            (p.x = br.stop.x ∧ p.y = br.stop.y) then
          { p with remainingConnections := p.remainingConnections + 1 }
        else p) : Point).y = p.y := by
  intro p
  by_cases h : (p.x = br.start.x ∧ p.y = br.start.y) ∨ (p.x = br.stop.x ∧ p.y = br.stop.y)
  · rw [if_pos h]; exact ⟨rfl, rfl⟩
  · rw [if_neg h]; exact ⟨rfl, rfl⟩

/-- Ledger bookkeeping for the reduction path's board update: if the
incidence sums drop by exactly 1 at the clicked bridge's endpoints, the
ledger equation survives the `+ 1` budget restoration. -/
lemma ledger_click (board : GameBoard) (bridges bridges' : List Bridge)
    (br : Bridge)
    (hL : ∀ p ∈ board, p.remainingConnections = p.value - incidentSum bridges p)
    (hdelta : ∀ p ∈ board, incidentSum bridges' p = incidentSum bridges p -
        (if (p.x = br.start.x ∧ p.y = br.start.y) ∨
            (p.x = br.stop.x ∧ p.y = br.stop.y) then 1 else 0)) :
    ∀ p' ∈ board.map fun p =>
        if (p.x = br.start.x ∧ p.y = br.start.y) ∨
            (p.x = br.stop.x ∧ p.y = br.stop.y) then
          { p with remainingConnections := p.remainingConnections + 1 }
        else p,
      p'.remainingConnections = p'.value - incidentSum bridges' p' := by
  intro p' hp'
  rcases List.mem_map.mp hp' with ⟨p, hp, rfl⟩
  have hL' := hL p hp
  have hdel := hdelta p hp
  by_cases hc : (p.x = br.start.x ∧ p.y = br.start.y) ∨ (p.x = br.stop.x ∧ p.y = br.stop.y)
  · rw [if_pos hc] at hdel ⊢
    show p.remainingConnections + 1 = p.value -
      incidentSum bridges' { p with remainingConnections := p.remainingConnections + 1 }
    rw [show incidentSum bridges'
        { p with remainingConnections := p.remainingConnections + 1 } =
        incidentSum bridges' p from incidentSum_congr_coords bridges' rfl rfl, hdel]
    omega
  · rw [if_neg hc] at hdel ⊢
    rw [hdel]
    omega

/-- The reduction path preserves the invariant. -/
lemma inv_handleBridgeClick (s : GameState) (br : Bridge) (hbr : br ∈ s.bridges)
    (hinv : Inv s) : Inv (handleBridgeClick s br) := by
  obtain ⟨hdc, hcnt, hnodup, hlt, hledger⟩ := hinv
  rcases List.append_of_mem hbr with ⟨t1, t2, hsplit⟩
  have hns := hnodup
  rw [hsplit, List.map_append, List.map_cons] at hns
  rw [List.nodup_append] at hns
  obtain ⟨hnd1, hnd2, hdisj⟩ := hns
  have hid1 : ∀ x ∈ t1, x.id ≠ br.id := by
    intro x hx he
    exact hdisj (List.mem_map_of_mem _ hx) (he ▸ List.mem_cons_self _ _)
  have hid2 : ∀ x ∈ t2, x.id ≠ br.id := by
    intro x hx he
    rcases List.nodup_cons.mp hnd2 with ⟨hni, _⟩
    exact hni (he ▸ List.mem_map_of_mem _ hx)
  have hmem1 : ∀ x : Bridge, x ∈ t1 → x ∈ s.bridges := by
    rw [hsplit]
    exact fun x h => List.mem_append_left _ h
  have hmem2 : ∀ x : Bridge, x ∈ t2 → x ∈ s.bridges := by
    rw [hsplit]
    exact fun x h => List.mem_append_right _ (List.mem_cons_of_mem br h)
  unfold handleBridgeClick
  by_cases hcount : br.count > 1
  · -- 2 → 1
    have hbr2 : br.count = 2 := by
      rcases hcnt br hbr with h | h
      · omega
      · exact h
    rw [if_pos hcount]
    have hbrs : (s.bridges.map fun x =>
        if x.id = br.id then { x with count := 1 } else x) =
        t1 ++ { br with count := 1 } :: t2 := by
      rw [hsplit, List.map_append, List.map_cons, if_pos rfl]
      have h1 : t1.map (fun x => if x.id = br.id then { x with count := 1 } else x) =
          t1 := by
        rw [List.map_congr_left fun x hx => if_neg (hid1 x hx)]
        simp
      have h2 : t2.map (fun x => if x.id = br.id then { x with count := 1 } else x) =
          t2 := by
        rw [List.map_congr_left fun x hx => if_neg (hid2 x hx)]
        simp
      rw [h1, h2]
    refine ⟨hdc.map_coords _ (clickUpdate_fun_coords br), ?_, ?_, ?_, ?_⟩
    · intro x hx
      rw [hbrs] at hx
      rcases List.mem_append.mp hx with h | h
      · exact hcnt x (hmem1 x h)
      · rcases List.mem_cons.mp h with rfl | h
        · exact Or.inl rfl
        · exact hcnt x (hmem2 x h)
    · have hids : ((s.bridges.map fun x =>
          if x.id = br.id then { x with count := 1 } else x).map fun x => x.id) =
          s.bridges.map fun x => x.id := by
        rw [List.map_map]
        refine List.map_congr_left ?_
        intro x _
        show (if x.id = br.id then ({ x with count := 1 } : Bridge) else x).id = x.id
        by_cases h : x.id = br.id
        · rw [if_pos h]
        · rw [if_neg h]
      rw [hids]
      exact hnodup
    · intro x hx
      rcases List.mem_map.mp hx with ⟨y, hy, rfl⟩
      show (if y.id = br.id then ({ y with count := 1 } : Bridge) else y).id < s.nextId
      by_cases h : y.id = br.id
      · rw [if_pos h]
        exact hlt y hy
      · rw [if_neg h]
        exact hlt y hy
    · rw [hbrs]
      refine ledger_click s.board s.bridges _ br hledger ?_
      intro p hp
      rw [hsplit, incidentSum_append, incidentSum_append, incidentSum_cons,
        incidentSum_cons]
      have hiff1 : incident { br with count := 1 } p ↔ incident br p := Iff.rfl
      by_cases hcond : (p.x = br.start.x ∧ p.y = br.start.y) ∨
          (p.x = br.stop.x ∧ p.y = br.stop.y)
      · rw [if_pos (hiff1.mpr ((incident_flip_iff br p).mpr hcond)),
          if_pos ((incident_flip_iff br p).mpr hcond), if_pos hcond]
        simp only [hbr2]
        ring
      · rw [if_neg (fun hcontra =>
            hcond ((incident_flip_iff br p).mp (hiff1.mp hcontra))),
          if_neg (fun hcontra => hcond ((incident_flip_iff br p).mp hcontra)),
          if_neg hcond]
        ring
  · -- 1 → remove
    have hbr1 : br.count = 1 := by
      rcases hcnt br hbr with h | h
      · exact h
      · omega
    rw [if_neg hcount]
    have hbrs : (s.bridges.filter fun x => x.id ≠ br.id) = t1 ++ t2 := by
      rw [hsplit, List.filter_append, List.filter_cons]
      have hfalse : (decide (br.id ≠ br.id)) = false := by simp
      rw [hfalse]
      have h1 : (t1.filter fun x => x.id ≠ br.id) = t1 :=
        List.filter_eq_self.mpr fun x hx => by simpa using hid1 x hx
      have h2 : (t2.filter fun x => x.id ≠ br.id) = t2 :=
        List.filter_eq_self.mpr fun x hx => by simpa using hid2 x hx
      rw [h1, h2]
      simp
    refine ⟨hdc.map_coords _ (clickUpdate_fun_coords br), ?_, ?_, ?_, ?_⟩
    · intro x hx
      rw [hbrs] at hx
      rcases List.mem_append.mp hx with h | h
      · exact hcnt x (hmem1 x h)
      · exact hcnt x (hmem2 x h)
    · rw [hbrs]
      have hsub : (t1 ++ t2).Sublist (t1 ++ br :: t2) :=
        (List.sublist_cons_self br t2).append_left t1
      have hns2 := hnodup
      rw [hsplit] at hns2
      exact ((hsub.map _).nodup hns2)
    · intro x hx
      rw [hbrs] at hx
      rcases List.mem_append.mp hx with h | h
      · exact hlt x (hmem1 x h)
      · exact hlt x (hmem2 x h)
    · rw [hbrs]
      refine ledger_click s.board s.bridges _ br hledger ?_
      intro p hp
      rw [hsplit, incidentSum_append, incidentSum_append, incidentSum_cons]
      by_cases hcond : (p.x = br.start.x ∧ p.y = br.start.y) ∨
          (p.x = br.stop.x ∧ p.y = br.stop.y)
      · rw [if_pos ((incident_flip_iff br p).mpr hcond), if_pos hcond]
        simp only [hbr1]
        ring
      · rw [if_neg (fun hcontra => hcond ((incident_flip_iff br p).mp hcontra)),
          if_neg hcond]
        ring

/-- `handlePointClick` preserves the invariant. -/
lemma inv_handlePointClick (s : GameState) (a b : Point) (hinv : Inv s) :
    Inv (handlePointClick s a b) := by
  unfold handlePointClick
  by_cases hba : b = a
  · rw [if_pos hba]
    exact hinv
  · rw [if_neg hba]
    by_cases hv : isValidConnection a b s.board = true
    · rw [if_pos hv]
      exact inv_addOrUpdate s a b hinv
    · rw [if_neg hv]
      exact hinv

/-- Every reachable state satisfies the invariant. -/
lemma reachable_inv {s : GameState} (h : Reachable s) : Inv s := by
  induction h with
  | init cs hlen hwf => exact inv_init cs hwf
  | prim a b ha hb hs ih => exact inv_handlePointClick _ a b ih
  | reduce br hbr hs ih => exact inv_handleBridgeClick _ br hbr ih

/-- C1: in every state reachable from a freshly generated board by
validated primary-cycle applications and reduction-path applications on
existing bridges, every island's `remainingConnections` equals its `value`
minus the summed counts of its incident bridges. -/
theorem reachable_ledger_invariant (s : GameState) (h : Reachable s) :
    ∀ p ∈ s.board, p.remainingConnections = p.value - incidentSum s.bridges p :=
  (reachable_inv h).2.2.2.2

/-- Witness for C1: the first island of the freshly loaded fallback
board. -/
theorem reachable_ledger_invariant_witness :
    islA.remainingConnections =
      islA.value - incidentSum (mkInitialState fallbackBoard).bridges islA := by
  have h0 : Reachable (mkInitialState fallbackBoard) := by
    have h := Reachable.init (List.replicate 100 badChoice) (by decide)
      (by decide)
    rwa [show generateValidPuzzle (List.replicate 100 badChoice) = fallbackBoard
      from by decide] at h
  exact reachable_ledger_invariant (mkInitialState fallbackBoard) h0 islA (by decide)

/-! ## C9: the union-find spanning-tree construction

The source's parent-pointer union-find is modelled extensionally by the
partition it maintains (`compOf` = `find`, `ufUnion` = `union`, `sameSetB`
= `sameSet`).  `Joined` is the same-component relation as a proposition. -/

/-- `a` and `b` lie in a common component. -/
def Joined (comps : List (List Point)) (a b : Point) : Prop :=
  ∃ c ∈ comps, a ∈ c ∧ b ∈ c

/-- One candidate edge joins `a` and `b` (in either orientation). -/
def EdgeRel (es : List (Point × Point)) (a b : Point) : Prop :=
  (a, b) ∈ es ∨ (b, a) ∈ es

/-- The candidate graph is connected on the island set. -/
def ConnectedG (islands : List Point) (es : List (Point × Point)) : Prop :=
  ∀ a ∈ islands, ∀ b ∈ islands, Relation.ReflTransGen (EdgeRel es) a b

/-- `comps` is a partition of the island set: components are non-empty,
draw their members from the islands, cover every island, and are pairwise
disjoint. -/
def PartitionOf (islands : List Point) (comps : List (List Point)) : Prop :=
  (∀ c ∈ comps, c ≠ []) ∧
    (∀ c ∈ comps, ∀ x ∈ c, x ∈ islands) ∧
    (∀ x ∈ islands, ∃ c ∈ comps, x ∈ c) ∧
    comps.Pairwise fun c1 c2 => ∀ x, x ∈ c1 → x ∉ c2

lemma sameSetB_iff (comps : List (List Point)) (a b : Point) :
    sameSetB comps a b = true ↔ Joined comps a b := by
  unfold sameSetB Joined
  simp [List.any_eq_true]

lemma Joined.symm {comps : List (List Point)} {a b : Point}
    (h : Joined comps a b) : Joined comps b a := by
  rcases h with ⟨c, hc, ha, hb⟩
  exact ⟨c, hc, hb, ha⟩

/-- `compOf` always yields a list containing the point. -/
lemma mem_compOf (comps : List (List Point)) (a : Point) : a ∈ compOf comps a := by
  unfold compOf
  cases hf : comps.find? fun c => c.contains a with
  | none => exact List.mem_singleton_self a
  | some c =>
      rw [Option.getD_some]
      have := List.find?_some hf
      simpa using this

/-- When the point is covered, its component is in the partition. -/
lemma compOf_mem {islands : List Point} {comps : List (List Point)}
    (hpart : PartitionOf islands comps) {a : Point} (ha : a ∈ islands) :
    compOf comps a ∈ comps := by
  unfold compOf
  cases hf : comps.find? fun c => c.contains a with
  | none =>
      rcases hpart.2.2.1 a ha with ⟨c, hc, hac⟩
      have := List.find?_eq_none.mp hf c hc
      simp at this
      exact absurd hac this
  | some c =>
      rw [Option.getD_some]
      exact List.mem_of_find?_eq_some hf

/-- Pairwise disjointness, usable at arbitrary pairs of components. -/
lemma partition_disjoint {islands : List Point} {comps : List (List Point)}
    (hpart : PartitionOf islands comps) {c1 c2 : List Point}
    (h1 : c1 ∈ comps) (h2 : c2 ∈ comps) (hne : c1 ≠ c2) :
    ∀ x, x ∈ c1 → x ∉ c2 := by
  have hsymm : Symmetric fun c1 c2 : List Point => ∀ x, x ∈ c1 → x ∉ c2 := by
    intro u v h x hxv hxu
    exact h x hxu hxv
  exact hpart.2.2.2.forall hsymm h1 h2 hne

/-- A member of a component in the partition determines that component. -/
lemma partition_comp_unique {islands : List Point} {comps : List (List Point)}
    (hpart : PartitionOf islands comps) {c1 c2 : List Point} {x : Point}
    (h1 : c1 ∈ comps) (h2 : c2 ∈ comps) (hx1 : x ∈ c1) (hx2 : x ∈ c2) :
    c1 = c2 := by
  by_contra hne
  exact partition_disjoint hpart h1 h2 hne x hx1 hx2

/-- The component found for a covered point is the unique one holding it. -/
lemma compOf_eq {islands : List Point} {comps : List (List Point)}
    (hpart : PartitionOf islands comps) {a : Point} (ha : a ∈ islands)
    {c : List Point} (hc : c ∈ comps) (hac : a ∈ c) : compOf comps a = c :=
  partition_comp_unique hpart (compOf_mem hpart ha) hc (mem_compOf comps a) hac

lemma Joined.refl_of_mem {islands : List Point} {comps : List (List Point)}
    (hpart : PartitionOf islands comps) {a : Point} (ha : a ∈ islands) :
    Joined comps a a := by
  rcases hpart.2.2.1 a ha with ⟨c, hc, hac⟩
  exact ⟨c, hc, hac, hac⟩

lemma Joined.trans_of {islands : List Point} {comps : List (List Point)}
    (hpart : PartitionOf islands comps) {a b c : Point}
    (h1 : Joined comps a b) (h2 : Joined comps b c) : Joined comps a c := by
  rcases h1 with ⟨c1, hc1, ha1, hb1⟩
  rcases h2 with ⟨c2, hc2, hb2, hc2'⟩
  have := partition_comp_unique hpart hc1 hc2 hb1 hb2
  subst this
  exact ⟨c1, hc1, ha1, hc2'⟩

lemma Joined.mem_islands {islands : List Point} {comps : List (List Point)}
    (hpart : PartitionOf islands comps) {a b : Point}
    (h : Joined comps a b) : a ∈ islands ∧ b ∈ islands := by
  rcases h with ⟨c, hc, ha, hb⟩
  exact ⟨hpart.2.1 c hc a ha, hpart.2.1 c hc b hb⟩

/-- A union never separates joined points (no invariant required). -/
lemma Joined.ufUnion_mono {comps : List (List Point)} {x y : Point}
    (h : Joined comps x y) (a b : Point) : Joined (ufUnion comps a b) x y := by
  unfold ufUnion
  by_cases hab : compOf comps a = compOf comps b
  · rw [if_pos hab]
    exact h
  · rw [if_neg hab]
    rcases h with ⟨c, hc, hx, hy⟩
    by_cases hca : c = compOf comps a
    · exact ⟨compOf comps a ++ compOf comps b, List.mem_cons_self _ _,
        List.mem_append_left _ (hca ▸ hx), List.mem_append_left _ (hca ▸ hy)⟩
    · by_cases hcb : c = compOf comps b
      · exact ⟨compOf comps a ++ compOf comps b, List.mem_cons_self _ _,
          List.mem_append_right _ (hcb ▸ hx), List.mem_append_right _ (hcb ▸ hy)⟩
      · refine ⟨c, List.mem_cons_of_mem _ (List.mem_filter.mpr ⟨hc, ?_⟩), hx, hy⟩
        simp [hca, hcb]

/-- After a union of two covered points, they are joined. -/
lemma Joined.ufUnion_self {islands : List Point} {comps : List (List Point)}
    (hpart : PartitionOf islands comps) {a b : Point}
    (ha : a ∈ islands) (hb : b ∈ islands) : Joined (ufUnion comps a b) a b := by
  unfold ufUnion
  by_cases hc : compOf comps a = compOf comps b
  · rw [if_pos hc]
    exact ⟨compOf comps a, compOf_mem hpart ha, mem_compOf comps a,
      hc ▸ mem_compOf comps b⟩
  · rw [if_neg hc]
    exact ⟨compOf comps a ++ compOf comps b, List.mem_cons_self _ _,
      List.mem_append_left _ (mem_compOf comps a),
      List.mem_append_right _ (mem_compOf comps b)⟩

/-- Partitions never contain duplicate components. -/
lemma partition_nodup {islands : List Point} {comps : List (List Point)}
    (hpart : PartitionOf islands comps) : comps.Nodup := by
  refine (hpart.2.2.2.imp_of_mem ?_)
  intro c1 c2 h1 _ hdisj he
  subst he
  rcases List.exists_mem_of_ne_nil c1 (hpart.1 c1 h1) with ⟨x, hx⟩
  exact hdisj x hx hx

/-- Dropping two distinct members of a duplicate-free list shortens it by
exactly two. -/
lemma length_filter_ne_two {α : Type} [DecidableEq α] :
    ∀ l : List α, l.Nodup → ∀ x y, x ∈ l → y ∈ l → x ≠ y →
      (l.filter fun c => decide (c ≠ x ∧ c ≠ y)).length + 2 = l.length := by
  intro l
  induction l with
  | nil =>
      intro _ x y hx _ _
      simp at hx
  | cons a t ih =>
      intro hnd x y hx hy hxy
      rcases List.nodup_cons.mp hnd with ⟨hat, hndt⟩
      rw [List.filter_cons]
      by_cases hax : a = x
      · subst hax
        rw [show (decide (a ≠ a ∧ a ≠ y)) = false by simp, if_neg Bool.false_ne_true]
        have hyt : y ∈ t := by
          rcases List.mem_cons.mp hy with h | h
          · exact absurd h.symm hxy
          · exact h
        have hft : (t.filter fun c => decide (c ≠ a ∧ c ≠ y)) =
            t.filter fun c => decide (c ≠ y) := by
          refine List.filter_congr ?_
          intro c hc
          have hca : c ≠ a := fun he => hat (he ▸ hc)
          simp [hca]
        rw [hft]
        have herase : t.erase y = t.filter fun c => decide (c ≠ y) := by
          rw [hndt.erase_eq_filter y]
          refine List.filter_congr ?_
          intro c _
          by_cases h : c = y <;> simp [h]
        have hlen := List.length_erase_of_mem hyt
        rw [herase] at hlen
        have hpos : 1 ≤ t.length := List.length_pos.mpr (List.ne_nil_of_mem hyt)
        simp only [List.length_cons]
        omega
      · by_cases hay : a = y
        · subst hay
          rw [show (decide (a ≠ x ∧ a ≠ a)) = false by simp, if_neg Bool.false_ne_true]
          have hxt : x ∈ t := by
            rcases List.mem_cons.mp hx with h | h
            · exact absurd h (fun he => hax he.symm)
            · exact h
          have hft : (t.filter fun c => decide (c ≠ x ∧ c ≠ a)) =
              t.filter fun c => decide (c ≠ x) := by
            refine List.filter_congr ?_
            intro c hc
            have hca : c ≠ a := fun he => hat (he ▸ hc)
            simp [hca]
          rw [hft]
          have herase : t.erase x = t.filter fun c => decide (c ≠ x) := by
            rw [hndt.erase_eq_filter x]
            refine List.filter_congr ?_
            intro c _
            by_cases h : c = x <;> simp [h]
          have hlen := List.length_erase_of_mem hxt
          rw [herase] at hlen
          have hpos : 1 ≤ t.length := List.length_pos.mpr (List.ne_nil_of_mem hxt)
          simp only [List.length_cons]
          omega
        · rw [show (decide (a ≠ x ∧ a ≠ y)) = true by simp [hax, hay], if_pos rfl]
          have hxt : x ∈ t := by
            rcases List.mem_cons.mp hx with h | h
            · exact absurd h (fun he => hax he.symm)
            · exact h
          have hyt : y ∈ t := by
            rcases List.mem_cons.mp hy with h | h
            · exact absurd h (fun he => hay he.symm)
            · exact h
          have := ih hndt x y hxt hyt hxy
          simp only [List.length_cons]
          omega

/-- A union of covered points keeps the partition a partition. -/
lemma ufUnion_partition {islands : List Point} {comps : List (List Point)}
    (hpart : PartitionOf islands comps) {a b : Point}
    (ha : a ∈ islands) (hb : b ∈ islands) :
    PartitionOf islands (ufUnion comps a b) := by
  unfold ufUnion
  by_cases hc : compOf comps a = compOf comps b
  · rw [if_pos hc]
    exact hpart
  · rw [if_neg hc]
    have hca : compOf comps a ∈ comps := compOf_mem hpart ha
    have hcb : compOf comps b ∈ comps := compOf_mem hpart hb
    have hfiltermem : ∀ c, c ∈ (comps.filter fun c =>
        decide (c ≠ compOf comps a ∧ c ≠ compOf comps b)) → c ∈ comps := by
      intro c hcm
      exact (List.mem_filter.mp hcm).1
    refine ⟨?_, ?_, ?_, ?_⟩
    · intro c hcm
      rcases List.mem_cons.mp hcm with rfl | hcm
      · intro happ
        rcases List.append_eq_nil.mp happ with ⟨h1, _⟩
        exact hpart.1 _ hca h1
      · exact hpart.1 c (hfiltermem c hcm)
    · intro c hcm x hxc
      rcases List.mem_cons.mp hcm with rfl | hcm
      · rcases List.mem_append.mp hxc with h | h
        · exact hpart.2.1 _ hca x h
        · exact hpart.2.1 _ hcb x h
      · exact hpart.2.1 c (hfiltermem c hcm) x hxc
    · intro x hxi
      rcases hpart.2.2.1 x hxi with ⟨c, hcm, hxc⟩
      by_cases h1 : c = compOf comps a
      · exact ⟨_, List.mem_cons_self _ _, List.mem_append_left _ (h1 ▸ hxc)⟩
      · by_cases h2 : c = compOf comps b
        · exact ⟨_, List.mem_cons_self _ _, List.mem_append_right _ (h2 ▸ hxc)⟩
        · exact ⟨c, List.mem_cons_of_mem _
            (List.mem_filter.mpr ⟨hcm, by simp [h1, h2]⟩), hxc⟩
    · rw [List.pairwise_cons]
      constructor
      · intro c hcm x hxm
        have hcmem := hfiltermem c hcm
        have hcfa : c ≠ compOf comps a := by
          have := (List.mem_filter.mp hcm).2
          simp at this
          exact this.1
        have hcfb : c ≠ compOf comps b := by
          have := (List.mem_filter.mp hcm).2
          simp at this
          exact this.2
        rcases List.mem_append.mp hxm with h | h
        · exact partition_disjoint hpart hca hcmem (Ne.symm hcfa) x h
        · exact partition_disjoint hpart hcb hcmem (Ne.symm hcfb) x h
      · exact hpart.2.2.2.filter _

/-- Exact effect of a union on the joined relation. -/
lemma joined_ufUnion_iff {islands : List Point} {comps : List (List Point)}
    (hpart : PartitionOf islands comps) {a b : Point}
    (ha : a ∈ islands) (hb : b ∈ islands) (x y : Point) :
    Joined (ufUnion comps a b) x y ↔
      Joined comps x y ∨ (Joined comps x a ∧ Joined comps y b) ∨
        (Joined comps x b ∧ Joined comps y a) := by
  have hca : compOf comps a ∈ comps := compOf_mem hpart ha
  have hcb : compOf comps b ∈ comps := compOf_mem hpart hb
  unfold ufUnion
  by_cases hc : compOf comps a = compOf comps b
  · rw [if_pos hc]
    have hjab : Joined comps a b :=
      ⟨compOf comps a, hca, mem_compOf comps a, hc ▸ mem_compOf comps b⟩
    constructor
    · exact Or.inl
    · rintro (h | ⟨h1, h2⟩ | ⟨h1, h2⟩)
      · exact h
      · exact (h1.trans_of hpart (hjab.trans_of hpart h2.symm) : _)
      · exact (h1.trans_of hpart (hjab.symm.trans_of hpart h2.symm) : _)
  · rw [if_neg hc]
    constructor
    · rintro ⟨c, hcm, hxc, hyc⟩
      rcases List.mem_cons.mp hcm with rfl | hcm
      · rcases List.mem_append.mp hxc with hx1 | hx1 <;>
          rcases List.mem_append.mp hyc with hy1 | hy1
        · exact Or.inl ⟨_, hca, hx1, hy1⟩
        · exact Or.inr (Or.inl ⟨⟨_, hca, hx1, mem_compOf comps a⟩,
            ⟨_, hcb, hy1, mem_compOf comps b⟩⟩)
        · exact Or.inr (Or.inr ⟨⟨_, hcb, hx1, mem_compOf comps b⟩,
            ⟨_, hca, hy1, mem_compOf comps a⟩⟩)
        · exact Or.inl ⟨_, hcb, hx1, hy1⟩
      · exact Or.inl ⟨c, (List.mem_filter.mp hcm).1, hxc, hyc⟩
    · rintro (h | ⟨h1, h2⟩ | ⟨h1, h2⟩)
      · have hm := h.ufUnion_mono a b
        unfold ufUnion at hm
        rw [if_neg hc] at hm
        exact hm
      · rcases h1 with ⟨c1, hc1, hxc1, hac1⟩
        rcases h2 with ⟨c2, hc2, hyc2, hbc2⟩
        have e1 : c1 = compOf comps a :=
          (compOf_eq hpart ha hc1 hac1).symm
        have e2 : c2 = compOf comps b :=
          (compOf_eq hpart hb hc2 hbc2).symm
        exact ⟨_, List.mem_cons_self _ _,
          List.mem_append_left _ (e1 ▸ hxc1),
          List.mem_append_right _ (e2 ▸ hyc2)⟩
      · rcases h1 with ⟨c1, hc1, hxc1, hbc1⟩
        rcases h2 with ⟨c2, hc2, hyc2, hac2⟩
        have e1 : c1 = compOf comps b :=
          (compOf_eq hpart hb hc1 hbc1).symm
        have e2 : c2 = compOf comps a :=
          (compOf_eq hpart ha hc2 hac2).symm
        exact ⟨_, List.mem_cons_self _ _,
          List.mem_append_right _ (e1 ▸ hxc1),
          List.mem_append_left _ (e2 ▸ hyc2)⟩

/-- A union of two covered, not-yet-joined points shrinks the partition by
exactly one component. -/
lemma ufUnion_length {islands : List Point} {comps : List (List Point)}
    (hpart : PartitionOf islands comps) {a b : Point}
    (ha : a ∈ islands) (hb : b ∈ islands) (hnj : ¬ Joined comps a b) :
    (ufUnion comps a b).length + 1 = comps.length := by
  have hca : compOf comps a ∈ comps := compOf_mem hpart ha
  have hcb : compOf comps b ∈ comps := compOf_mem hpart hb
  unfold ufUnion
  by_cases hc : compOf comps a = compOf comps b
  · exact absurd
      ⟨compOf comps a, hca, mem_compOf comps a, hc ▸ mem_compOf comps b⟩ hnj
  · rw [if_neg hc]
    rw [List.length_cons]
    have := length_filter_ne_two comps (partition_nodup hpart) _ _ hca hcb hc
    omega

lemma mstFold_cons_pos {comps : List (List Point)} {e : Point × Point}
    (rest : List (Point × Point)) (h : sameSetB comps e.1 e.2 = true) :
    mstFold (e :: rest) comps = mstFold rest comps := by
  simp only [mstFold]
  rw [if_pos h]

lemma mstFold_cons_neg {comps : List (List Point)} {e : Point × Point}
    (rest : List (Point × Point)) (h : ¬ sameSetB comps e.1 e.2 = true) :
    mstFold (e :: rest) comps =
      ((mstFold rest (ufUnion comps e.1 e.2)).1,
        { start := e.1, stop := e.2, count := 1 } ::
          (mstFold rest (ufUnion comps e.1 e.2)).2) := by
  simp only [mstFold]
  rw [if_neg h]

/-- The fold keeps the partition a partition, and every accepted edge
shrinks it by exactly one component. -/
lemma mstFold_partition_length {islands : List Point} :
    ∀ (es : List (Point × Point)) (comps : List (List Point)),
      PartitionOf islands comps →
      (∀ e ∈ es, e.1 ∈ islands ∧ e.2 ∈ islands) →
      PartitionOf islands (mstFold es comps).1 ∧
        (mstFold es comps).1.length + (mstFold es comps).2.length = comps.length := by
  intro es
  induction es with
  | nil =>
      intro comps hpart _
      exact ⟨hpart, by simp [mstFold]⟩
  | cons e rest ih =>
      intro comps hpart hes
      have hes' : ∀ f ∈ rest, f.1 ∈ islands ∧ f.2 ∈ islands :=
        fun f hf => hes f (List.mem_cons_of_mem e hf)
      rcases hes e (List.mem_cons_self e rest) with ⟨he1, he2⟩
      by_cases hss : sameSetB comps e.1 e.2 = true
      · rw [mstFold_cons_pos rest hss]
        exact ih comps hpart hes'
      · rw [mstFold_cons_neg rest hss]
        have hnj : ¬ Joined comps e.1 e.2 := fun hj =>
          hss ((sameSetB_iff comps e.1 e.2).mpr hj)
        have hpart' := ufUnion_partition hpart he1 he2
        rcases ih (ufUnion comps e.1 e.2) hpart' hes' with ⟨hpF, hlen⟩
        have hul := ufUnion_length hpart he1 he2 hnj
        refine ⟨hpF, ?_⟩
        simp only [List.length_cons]
        omega

/-- Collapse a reflexive-transitive chain of joins into a single join. -/
lemma rtg_joined_collapse {islands : List Point} {comps : List (List Point)}
    (hpart : PartitionOf islands comps) {x y : Point} (hx : x ∈ islands)
    (h : Relation.ReflTransGen (Joined comps) x y) : Joined comps x y := by
  induction h with
  | refl => exact Joined.refl_of_mem hpart hx
  | tail _ h2 ih => exact ih.trans_of hpart h2

/-- Strengthened monotonicity: a relation included in the closure of
another has its closure included as well. -/
lemma rtg_le_rtg {r r' : Point → Point → Prop}
    (h : ∀ u v, r u v → Relation.ReflTransGen r' u v) {x y : Point}
    (hxy : Relation.ReflTransGen r x y) : Relation.ReflTransGen r' x y := by
  induction hxy with
  | refl => exact Relation.ReflTransGen.refl
  | tail _ h2 ih => exact ih.trans (h _ _ h2)

/-- Correctness of the union-find fold: two islands end in the same
component exactly when they are connected by the processed edges together
with the joins already present at the start. -/
lemma mstFold_joined {islands : List Point} :
    ∀ (es : List (Point × Point)) (comps : List (List Point)),
      PartitionOf islands comps →
      (∀ e ∈ es, e.1 ∈ islands ∧ e.2 ∈ islands) →
      ∀ x ∈ islands, ∀ y ∈ islands,
        (Joined (mstFold es comps).1 x y ↔
          Relation.ReflTransGen
            (fun u v => EdgeRel es u v ∨ Joined comps u v) x y) := by
  intro es
  induction es with
  | nil =>
      intro comps hpart _ x hx y hy
      show Joined comps x y ↔ _
      constructor
      · intro h
        exact Relation.ReflTransGen.single (Or.inr h)
      · intro h
        refine rtg_joined_collapse hpart hx (rtg_le_rtg ?_ h)
        rintro u v (he | hj)
        · rcases he with he | he <;> simp at he
        · exact Relation.ReflTransGen.single hj
  | cons e rest ih =>
      intro comps hpart hes x hx y hy
      have hes' : ∀ f ∈ rest, f.1 ∈ islands ∧ f.2 ∈ islands :=
        fun f hf => hes f (List.mem_cons_of_mem e hf)
      rcases hes e (List.mem_cons_self e rest) with ⟨he1, he2⟩
      by_cases hss : sameSetB comps e.1 e.2 = true
      · rw [mstFold_cons_pos rest hss]
        have hj : Joined comps e.1 e.2 := (sameSetB_iff comps e.1 e.2).mp hss
        rw [ih comps hpart hes' x hx y hy]
        constructor
        · refine rtg_le_rtg ?_
          rintro u v (he | hjj)
          · exact Relation.ReflTransGen.single
              (Or.inl (by
                rcases he with he | he
                · exact Or.inl (List.mem_cons_of_mem e he)
                · exact Or.inr (List.mem_cons_of_mem e he)))
          · exact Relation.ReflTransGen.single (Or.inr hjj)
        · refine rtg_le_rtg ?_
          rintro u v (he | hjj)
          · rcases he with he | he
            · rcases List.mem_cons.mp he with he | he
              · have h1 : u = e.1 ∧ v = e.2 := by
                  constructor
                  · exact congrArg Prod.fst he
                  · exact congrArg Prod.snd he
                rcases h1 with ⟨rfl, rfl⟩
                exact Relation.ReflTransGen.single (Or.inr hj)
              · exact Relation.ReflTransGen.single (Or.inl (Or.inl he))
            · rcases List.mem_cons.mp he with he | he
              · have h1 : v = e.1 ∧ u = e.2 := by
                  constructor
                  · exact congrArg Prod.fst he
                  · exact congrArg Prod.snd he
                rcases h1 with ⟨rfl, rfl⟩
                exact Relation.ReflTransGen.single (Or.inr hj.symm)
              · exact Relation.ReflTransGen.single (Or.inl (Or.inr he))
          · exact Relation.ReflTransGen.single (Or.inr hjj)
      · rw [mstFold_cons_neg rest hss]
        have hpart' := ufUnion_partition hpart he1 he2
        have hiff := joined_ufUnion_iff hpart he1 he2
        show Joined (mstFold rest (ufUnion comps e.1 e.2)).1 x y ↔ _
        rw [ih (ufUnion comps e.1 e.2) hpart' hes' x hx y hy]
        constructor
        · refine rtg_le_rtg ?_
          rintro u v (he | hjj)
          · exact Relation.ReflTransGen.single
              (Or.inl (by
                rcases he with he | he
                · exact Or.inl (List.mem_cons_of_mem e he)
                · exact Or.inr (List.mem_cons_of_mem e he)))
          · rcases (hiff u v).mp hjj with h | ⟨h1, h2⟩ | ⟨h1, h2⟩
            · exact Relation.ReflTransGen.single (Or.inr h)
            · have hstepA : (fun u v => EdgeRel (e :: rest) u v ∨ Joined comps u v)
                  e.1 e.2 := Or.inl (Or.inl (by simp))
              refine Relation.ReflTransGen.trans
                (Relation.ReflTransGen.single (Or.inr h1)) ?_
              exact Relation.ReflTransGen.trans
                (Relation.ReflTransGen.single hstepA)
                (Relation.ReflTransGen.single (Or.inr h2.symm))
            · have hstepB : (fun u v => EdgeRel (e :: rest) u v ∨ Joined comps u v)
                  e.2 e.1 := Or.inl (Or.inr (by simp))
              refine Relation.ReflTransGen.trans
                (Relation.ReflTransGen.single (Or.inr h1)) ?_
              exact Relation.ReflTransGen.trans
                (Relation.ReflTransGen.single hstepB)
                (Relation.ReflTransGen.single (Or.inr h2.symm))
        · refine rtg_le_rtg ?_
          rintro u v (he | hjj)
          · rcases he with he | he
            · rcases List.mem_cons.mp he with he | he
              · have h1 : u = e.1 ∧ v = e.2 :=
                  ⟨congrArg Prod.fst he, congrArg Prod.snd he⟩
                rcases h1 with ⟨rfl, rfl⟩
                exact Relation.ReflTransGen.single
                  (Or.inr (Joined.ufUnion_self hpart he1 he2))
              · exact Relation.ReflTransGen.single (Or.inl (Or.inl he))
            · rcases List.mem_cons.mp he with he | he
              · have h1 : v = e.1 ∧ u = e.2 :=
                  ⟨congrArg Prod.fst he, congrArg Prod.snd he⟩
                rcases h1 with ⟨rfl, rfl⟩
                exact Relation.ReflTransGen.single
                  (Or.inr (Joined.ufUnion_self hpart he1 he2).symm)
              · exact Relation.ReflTransGen.single (Or.inl (Or.inr he))
          · exact Relation.ReflTransGen.single
              (Or.inr (hjj.ufUnion_mono e.1 e.2))

/-- The initial singletons form a partition of a duplicate-free island
list. -/
lemma initComps_partition {islands : List Point} (hnd : islands.Nodup) :
    PartitionOf islands (initComps islands) := by
  refine ⟨?_, ?_, ?_, ?_⟩
  · intro c hc
    rcases List.mem_map.mp hc with ⟨p, _, rfl⟩
    simp
  · intro c hc x hx
    rcases List.mem_map.mp hc with ⟨p, hp, rfl⟩
    rw [List.mem_singleton] at hx
    exact hx ▸ hp
  · intro x hx
    exact ⟨[x], List.mem_map_of_mem _ hx, List.mem_singleton_self x⟩
  · unfold initComps
    rw [List.pairwise_map]
    refine hnd.imp_of_mem ?_
    intro p q _ _ hne x hxp hxq
    rw [List.mem_singleton] at hxp hxq
    exact hne (hxp ▸ hxq ▸ rfl)

/-- In the initial partition, joined means equal (and on the board). -/
lemma joined_initComps_iff (islands : List Point) (x y : Point) :
    Joined (initComps islands) x y ↔ x = y ∧ x ∈ islands := by
  constructor
  · rintro ⟨c, hc, hx, hy⟩
    rcases List.mem_map.mp hc with ⟨p, hp, rfl⟩
    rw [List.mem_singleton] at hx hy
    exact ⟨hx.trans hy.symm, hx ▸ hp⟩
  · rintro ⟨rfl, hx⟩
    exact ⟨[x], List.mem_map_of_mem _ hx, List.mem_singleton_self x,
      List.mem_singleton_self x⟩

/-- C9: during spanning-tree construction an edge is accepted (and its
endpoints unioned) exactly when its endpoints are not already in the same
union-find component; consequently, for a non-empty duplicate-free island
list the number of accepted edges is `K - 1` if and only if the candidate
graph is connected. -/
theorem spanning_tree_spec (islands : List Point) (es : List (Point × Point))
    (hne : islands ≠ []) (hnd : islands.Nodup)
    (hes : ∀ e ∈ es, e.1 ∈ islands ∧ e.2 ∈ islands) :
    (∀ (comps : List (List Point)) (e : Point × Point)
        (rest : List (Point × Point)),
      mstFold (e :: rest) comps =
        if sameSetB comps e.1 e.2 = true then mstFold rest comps
        else ((mstFold rest (ufUnion comps e.1 e.2)).1,
          { start := e.1, stop := e.2, count := 1 } ::
            (mstFold rest (ufUnion comps e.1 e.2)).2)) ∧
    ((mstFold es (initComps islands)).2.length = islands.length - 1 ↔
      ConnectedG islands es) := by
  constructor
  · intro comps e rest
    by_cases h : sameSetB comps e.1 e.2 = true
    · rw [mstFold_cons_pos rest h, if_pos h]
    · rw [mstFold_cons_neg rest h, if_neg h]
  · have hpart0 := initComps_partition hnd
    rcases mstFold_partition_length es (initComps islands) hpart0 hes with
      ⟨hpartF, hlen⟩
    have hK : (initComps islands).length = islands.length := List.length_map _ _
    have hjoin := mstFold_joined es (initComps islands) hpart0 hes
    -- the final partition covers a non-empty island list, so it is non-empty
    have hF1 : 1 ≤ (mstFold es (initComps islands)).1.length := by
      rcases List.exists_mem_of_ne_nil islands hne with ⟨x, hx⟩
      rcases hpartF.2.2.1 x hx with ⟨c, hc, _⟩
      exact List.length_pos.mpr (List.ne_nil_of_mem hc)
    have hK1 : 1 ≤ islands.length := by
      rcases List.exists_mem_of_ne_nil islands hne with ⟨x, hx⟩
      exact List.length_pos.mpr (List.ne_nil_of_mem hx)
    have hcomp1 : (mstFold es (initComps islands)).1.length = 1 ↔
        ConnectedG islands es := by
      constructor
      · intro h1
        rcases List.length_eq_one.mp h1 with ⟨c, hc⟩
        intro a ha b hb
        have hja : Joined (mstFold es (initComps islands)).1 a b := by
          rcases hpartF.2.2.1 a ha with ⟨ca, hca, haa⟩
          rcases hpartF.2.2.1 b hb with ⟨cb, hcb, hbb⟩
          rw [hc, List.mem_singleton] at hca hcb
          exact ⟨c, by rw [hc]; exact List.mem_singleton_self c,
            hca ▸ haa, hcb ▸ hbb⟩
        have := (hjoin a ha b hb).mp hja
        refine rtg_le_rtg ?_ this
        rintro u v (he | hj)
        · exact Relation.ReflTransGen.single he
        · rcases (joined_initComps_iff islands u v).mp hj with ⟨rfl, _⟩
          exact Relation.ReflTransGen.refl
      · intro hconn
        have hallj : ∀ a ∈ islands, ∀ b ∈ islands,
            Joined (mstFold es (initComps islands)).1 a b := by
          intro a ha b hb
          refine (hjoin a ha b hb).mpr ?_
          refine rtg_le_rtg ?_ (hconn a ha b hb)
          intro u v he
          exact Relation.ReflTransGen.single (Or.inl he)
        -- all components coincide, and the partition is duplicate-free
        have hcc : ∀ c1 ∈ (mstFold es (initComps islands)).1,
            ∀ c2 ∈ (mstFold es (initComps islands)).1, c1 = c2 := by
          intro c1 hc1 c2 hc2
          rcases List.exists_mem_of_ne_nil c1 (hpartF.1 c1 hc1) with ⟨x1, hx1⟩
          rcases List.exists_mem_of_ne_nil c2 (hpartF.1 c2 hc2) with ⟨x2, hx2⟩
          have hxi1 := hpartF.2.1 c1 hc1 x1 hx1
          have hxi2 := hpartF.2.1 c2 hc2 x2 hx2
          rcases hallj x1 hxi1 x2 hxi2 with ⟨c, hc, hx1c, hx2c⟩
          have e1 := partition_comp_unique hpartF hc1 hc hx1 hx1c
          have e2 := partition_comp_unique hpartF hc2 hc hx2 hx2c
          rw [e1, e2]
        cases hFc : (mstFold es (initComps islands)).1 with
        | nil =>
            rw [hFc] at hF1
            simp at hF1
        | cons c rest =>
            cases hrest : rest with
            | nil => rfl
            | cons c2 rest2 =>
                exfalso
                have hnd2 := partition_nodup hpartF
                rw [hFc, hrest] at hnd2
                have hce : c = c2 := by
                  refine hcc c (by rw [hFc]; exact List.mem_cons_self _ _)
                    c2 ?_
                  rw [hFc, hrest]
                  exact List.mem_cons_of_mem _ (List.mem_cons_self _ _)
                rcases List.nodup_cons.mp hnd2 with ⟨hcnot, _⟩
                exact hcnot (hce ▸ List.mem_cons_self c2 rest2)
    rw [← hcomp1]
    omega

/-- Witness for C9: two adjacent islands and the single candidate edge
between them; one accepted edge, `K - 1 = 1`, and the graph is
connected. -/
theorem spanning_tree_spec_witness :
    (∀ (comps : List (List Point)) (e : Point × Point)
        (rest : List (Point × Point)),
      mstFold (e :: rest) comps =
        if sameSetB comps e.1 e.2 = true then mstFold rest comps
        else ((mstFold rest (ufUnion comps e.1 e.2)).1,
          { start := e.1, stop := e.2, count := 1 } ::
            (mstFold rest (ufUnion comps e.1 e.2)).2)) ∧
    ((mstFold [(rawIsland 0 0, rawIsland 1 0)]
        (initComps [rawIsland 0 0, rawIsland 1 0])).2.length =
        [rawIsland 0 0, rawIsland 1 0].length - 1 ↔
      ConnectedG [rawIsland 0 0, rawIsland 1 0]
        [(rawIsland 0 0, rawIsland 1 0)]) :=
  spanning_tree_spec [rawIsland 0 0, rawIsland 1 0]
    [(rawIsland 0 0, rawIsland 1 0)] (by decide) (by decide) (by decide)

/-! ## C6: generated island values lie in [1, 8] -/

/-- Two used edges cover the same unordered endpoint pair. -/
def samePairE (u v : UsedEdge) : Prop :=
  (u.start = v.start ∧ u.stop = v.stop) ∨ (u.start = v.stop ∧ u.stop = v.start)

lemma samePairE_refl (u : UsedEdge) : samePairE u u := Or.inl ⟨rfl, rfl⟩

lemma samePairE_symm {u v : UsedEdge} (h : samePairE u v) : samePairE v u := by
  rcases h with ⟨h1, h2⟩ | ⟨h1, h2⟩
  · exact Or.inl ⟨h1.symm, h2.symm⟩
  · exact Or.inr ⟨h2.symm, h1.symm⟩

lemma allPairs_mem : ∀ {l : List Point} {e : Point × Point},
    e ∈ allPairs l → e.1 ∈ l ∧ e.2 ∈ l := by
  intro l
  induction l with
  | nil =>
      intro e he
      simp [allPairs] at he
  | cons a t ih =>
      intro e he
      rcases List.mem_append.mp he with h | h
      · rcases List.mem_map.mp h with ⟨b, hb, rfl⟩
        exact ⟨List.mem_cons_self a t, List.mem_cons_of_mem a hb⟩
      · rcases ih h with ⟨h1, h2⟩
        exact ⟨List.mem_cons_of_mem a h1, List.mem_cons_of_mem a h2⟩

lemma allPairs_rel {R : Point → Point → Prop} : ∀ {l : List Point},
    l.Pairwise R → ∀ e ∈ allPairs l, R e.1 e.2 := by
  intro l
  induction l with
  | nil =>
      intro _ e he
      simp [allPairs] at he
  | cons a t ih =>
      intro hp e he
      rcases List.pairwise_cons.mp hp with ⟨hhead, htail⟩
      rcases List.mem_append.mp he with h | h
      · rcases List.mem_map.mp h with ⟨b, hb, rfl⟩
        exact hhead b hb
      · exact ih htail e h

/-- What membership in the candidate list gives: both endpoints on the
board, shared axis, and no island strictly between. -/
lemma buildPotential_facts {islands : List Point} {e : Point × Point}
    (he : e ∈ buildPotential islands) :
    e ∈ allPairs islands ∧ (e.1.x = e.2.x ∨ e.1.y = e.2.y) ∧
      hasIslandInBetween e.1 e.2 islands = false := by
  rcases List.mem_filter.mp he with ⟨hmem, hcond⟩
  rw [Bool.and_eq_true, Bool.not_eq_eq_eq_not, Bool.not_true, decide_eq_true_eq]
    at hcond
  exact ⟨hmem, hcond.1, hcond.2⟩

/-- Pulling the no-island-between fact apart. -/
lemma no_strict_between {a b r : Point} {islands : List Point}
    (h : hasIslandInBetween a b islands = false) (hr : r ∈ islands)
    (hra : r ≠ a) (hrb : r ≠ b) :
    ¬ ((a.x = b.x ∧ r.x = a.x ∧ min a.y b.y < r.y ∧ r.y < max a.y b.y) ∨
       (a.x ≠ b.x ∧ r.y = a.y ∧ min a.x b.x < r.x ∧ r.x < max a.x b.x)) := by
  unfold hasIslandInBetween at h
  by_cases hax : a.x ≠ b.x ∧ a.y ≠ b.y
  · rw [if_pos hax] at h
    exact absurd h (by simp)
  · rw [if_neg hax] at h
    rw [List.any_eq_false] at h
    have hf := h r hr
    rw [if_neg (by simp [hra, hrb])] at hf
    rintro (⟨h1, h2, h3, h4⟩ | ⟨h1, h2, h3, h4⟩)
    · rw [if_pos h1, decide_eq_true_eq] at hf
      exact hf ⟨h2, h3, h4⟩
    · rw [if_neg h1, decide_eq_true_eq] at hf
      exact hf ⟨h2, h3, h4⟩

/-- Every edge the spanning-tree loop accepts comes from the processed
list, with count 1. -/
lemma mstFold_accepted_mem : ∀ (es : List (Point × Point))
    (comps : List (List Point)), ∀ u ∈ (mstFold es comps).2,
      (u.start, u.stop) ∈ es ∧ u.count = 1 := by
  intro es
  induction es with
  | nil =>
      intro comps u hu
      simp [mstFold] at hu
  | cons e rest ih =>
      intro comps u hu
      by_cases hss : sameSetB comps e.1 e.2 = true
      · rw [mstFold_cons_pos rest hss] at hu
        rcases ih comps u hu with ⟨h1, h2⟩
        exact ⟨List.mem_cons_of_mem e h1, h2⟩
      · rw [mstFold_cons_neg rest hss] at hu
        rcases List.mem_cons.mp hu with rfl | hu
        · exact ⟨by simp, rfl⟩
        · rcases ih (ufUnion comps e.1 e.2) u hu with ⟨h1, h2⟩
          exact ⟨List.mem_cons_of_mem e h1, h2⟩

/-- No accepted edge's endpoints were joined before the fold started. -/
lemma mstFold_accepted_not_joined : ∀ (es : List (Point × Point))
    (comps : List (List Point)), ∀ u ∈ (mstFold es comps).2,
      ¬ Joined comps u.start u.stop := by
  intro es
  induction es with
  | nil =>
      intro comps u hu
      simp [mstFold] at hu
  | cons e rest ih =>
      intro comps u hu
      by_cases hss : sameSetB comps e.1 e.2 = true
      · rw [mstFold_cons_pos rest hss] at hu
        exact ih comps u hu
      · rw [mstFold_cons_neg rest hss] at hu
        rcases List.mem_cons.mp hu with rfl | hu
        · show ¬ Joined comps e.1 e.2
          intro hj
          exact hss ((sameSetB_iff comps e.1 e.2).mpr hj)
        · intro hj
          exact ih (ufUnion comps e.1 e.2) u hu (hj.ufUnion_mono e.1 e.2)

/-- The spanning-tree loop never accepts two edges on the same pair. -/
lemma mstFold_accepted_pairwise {islands : List Point} :
    ∀ (es : List (Point × Point)) (comps : List (List Point)),
      PartitionOf islands comps →
      (∀ e ∈ es, e.1 ∈ islands ∧ e.2 ∈ islands) →
      (mstFold es comps).2.Pairwise fun u v => ¬ samePairE u v := by
  intro es
  induction es with
  | nil =>
      intro comps _ _
      simp [mstFold]
  | cons e rest ih =>
      intro comps hpart hes
      have hes' : ∀ f ∈ rest, f.1 ∈ islands ∧ f.2 ∈ islands :=
        fun f hf => hes f (List.mem_cons_of_mem e hf)
      rcases hes e (List.mem_cons_self e rest) with ⟨he1, he2⟩
      by_cases hss : sameSetB comps e.1 e.2 = true
      · rw [mstFold_cons_pos rest hss]
        exact ih comps hpart hes'
      · rw [mstFold_cons_neg rest hss]
        rw [List.pairwise_cons]
        refine ⟨?_, ih (ufUnion comps e.1 e.2) (ufUnion_partition hpart he1 he2) hes'⟩
        intro v hv hsame
        have hnj := mstFold_accepted_not_joined rest (ufUnion comps e.1 e.2) v hv
        have hself := Joined.ufUnion_self hpart he1 he2
        rcases hsame with ⟨h1, h2⟩ | ⟨h1, h2⟩
        · exact hnj (h1 ▸ h2 ▸ hself)
        · exact hnj (h1 ▸ h2 ▸ hself.symm)

lemma augmentOne_eq_none {a b : Point} : ∀ {l : List UsedEdge},
    augmentOne a b l = none →
    ∀ u ∈ l, ¬ ((u.start = a ∧ u.stop = b) ∨ (u.start = b ∧ u.stop = a)) := by
  intro l
  induction l with
  | nil =>
      intro _ u hu
      simp at hu
  | cons w rest ih =>
      intro h u hu
      unfold augmentOne at h
      by_cases hw : (w.start = a ∧ w.stop = b) ∨ (w.start = b ∧ w.stop = a)
      · rw [if_pos hw] at h
        split at h <;> exact absurd h (by simp)
      · rw [if_neg hw] at h
        rcases List.mem_cons.mp hu with rfl | hu
        · exact hw
        · exact ih (Option.map_eq_none'.mp h) u hu

lemma augmentOne_eq_some {a b : Point} : ∀ {l l' : List UsedEdge} {fl : Bool},
    augmentOne a b l = some (l', fl) →
    ∃ l1 u l2, l = l1 ++ u :: l2 ∧
      ((u.start = a ∧ u.stop = b) ∨ (u.start = b ∧ u.stop = a)) ∧
      l' = l1 ++ (if u.count < 2 then { u with count := 2 } else u) :: l2 := by
  intro l
  induction l with
  | nil =>
      intro l' fl h
      simp [augmentOne] at h
  | cons w rest ih =>
      intro l' fl h
      unfold augmentOne at h
      by_cases hw : (w.start = a ∧ w.stop = b) ∨ (w.start = b ∧ w.stop = a)
      · rw [if_pos hw] at h
        by_cases hc : w.count < 2
        · rw [if_pos hc] at h
          rw [Option.some.injEq, Prod.mk.injEq] at h
          refine ⟨[], w, rest, rfl, hw, ?_⟩
          rw [if_pos hc]
          exact h.1.symm
        · rw [if_neg hc] at h
          rw [Option.some.injEq, Prod.mk.injEq] at h
          refine ⟨[], w, rest, rfl, hw, ?_⟩
          rw [if_neg hc]
          exact h.1.symm
      · rw [if_neg hw] at h
        rcases Option.map_eq_some'.mp h with ⟨r, hr, hmap⟩
        rw [Prod.mk.injEq] at hmap
        rcases ih (by rw [hr] : augmentOne a b rest = some (r.1, r.2)) with
          ⟨l1, u, l2, hsplit, hu, hres⟩
        refine ⟨w :: l1, u, l2, by simp [hsplit], hu, ?_⟩
        rw [← hmap.1, hres]
        rfl

/-- The augmentation loop keeps counts in `{1, 2}`, keeps every edge's
stored pair in the candidate pool, and never creates a second edge on an
unordered pair. -/
lemma augmentFold_facts {pool : List (Point × Point)} :
    ∀ (es : List (Point × Point)) (extras : Nat) (used : List UsedEdge),
      (∀ u ∈ used, u.count = 1 ∨ u.count = 2) →
      (∀ u ∈ used, (u.start, u.stop) ∈ pool) →
      (∀ e ∈ es, e ∈ pool) →
      used.Pairwise (fun u v => ¬ samePairE u v) →
      (∀ u ∈ augmentFold extras es used, u.count = 1 ∨ u.count = 2) ∧
        (∀ u ∈ augmentFold extras es used, (u.start, u.stop) ∈ pool) ∧
        (augmentFold extras es used).Pairwise fun u v => ¬ samePairE u v := by
  intro es
  induction es with
  | nil =>
      intro extras used hc hp _ hnd
      exact ⟨hc, hp, hnd⟩
  | cons e rest ih =>
      intro extras used hc hp hes hnd
      have hes' : ∀ f ∈ rest, f ∈ pool := fun f hf => hes f (List.mem_cons_of_mem e hf)
      show (∀ u ∈ augmentFold extras (e :: rest) used, _) ∧ _
      by_cases hz : extras = 0
      · rw [show augmentFold extras (e :: rest) used = used from by
          simp only [augmentFold]
          rw [if_pos hz]]
        exact ⟨hc, hp, hnd⟩
      · cases haug : augmentOne e.1 e.2 used with
        | none =>
            rw [show augmentFold extras (e :: rest) used =
                augmentFold (extras - 1) rest
                  (used ++ [{ start := e.1, stop := e.2, count := 1 }]) from by
              simp only [augmentFold]
              rw [if_neg hz, haug]]
            refine ih (extras - 1) _ ?_ ?_ hes' ?_
            · intro u hu
              rcases List.mem_append.mp hu with h | h
              · exact hc u h
              · rw [List.mem_singleton] at h
                subst h
                exact Or.inl rfl
            · intro u hu
              rcases List.mem_append.mp hu with h | h
              · exact hp u h
              · rw [List.mem_singleton] at h
                subst h
                show ((e.1, e.2) : Point × Point) ∈ pool
                have := hes e (List.mem_cons_self e rest)
                simpa using this
            · rw [List.pairwise_append]
              refine ⟨hnd, by simp, ?_⟩
              intro u hu v hv
              rw [List.mem_singleton] at hv
              subst hv
              exact augmentOne_eq_none haug u hu
        | some r =>
            rw [show augmentFold extras (e :: rest) used =
                augmentFold (if r.2 then extras - 1 else extras) rest r.1 from by
              simp only [augmentFold]
              rw [if_neg hz, haug]]
            rcases augmentOne_eq_some (by rw [haug] :
                augmentOne e.1 e.2 used = some (r.1, r.2)) with
              ⟨l1, u, l2, hsplit, humatch, hres⟩
            set u' : UsedEdge := if u.count < 2 then { u with count := 2 } else u
              with hud
            have hust : u'.start = u.start ∧ u'.stop = u.stop := by
              rw [hud]
              by_cases hcc : u.count < 2
              · rw [if_pos hcc]
                exact ⟨rfl, rfl⟩
              · rw [if_neg hcc]
                exact ⟨rfl, rfl⟩
            have hsp : ∀ x, samePairE x u' ↔ samePairE x u := by
              intro x
              unfold samePairE
              rw [hust.1, hust.2]
            have hsp2 : ∀ x, samePairE u' x ↔ samePairE u x := by
              intro x
              unfold samePairE
              rw [hust.1, hust.2]
            have humem : ∀ x : UsedEdge, x ∈ l1 ++ u :: l2 → x ∈ used := by
              rw [hsplit]
              exact fun x h => h
            rw [hsplit] at hnd
            rw [List.pairwise_append, List.pairwise_cons] at hnd
            rcases hnd with ⟨hnd1, ⟨hul2, hnd2⟩, hcross⟩
            refine ih _ _ ?_ ?_ hes' ?_
            · intro x hx
              rw [hres] at hx
              rcases List.mem_append.mp hx with h | h
              · exact hc x (humem x (List.mem_append_left _ h))
              · rcases List.mem_cons.mp h with rfl | h
                · rw [hud]
                  by_cases hcc : u.count < 2
                  · rw [if_pos hcc]
                    exact Or.inr rfl
                  · rw [if_neg hcc]
                    exact hc u (humem u (List.mem_append_right _
                      (List.mem_cons_self u l2)))
                · exact hc x (humem x (List.mem_append_right _
                    (List.mem_cons_of_mem u h)))
            · intro x hx
              rw [hres] at hx
              rcases List.mem_append.mp hx with h | h
              · exact hp x (humem x (List.mem_append_left _ h))
              · rcases List.mem_cons.mp h with rfl | h
                · rw [show ((u'.start, u'.stop) : Point × Point) =
                      (u.start, u.stop) from by rw [hust.1, hust.2]]
                  exact hp u (humem u (List.mem_append_right _
                    (List.mem_cons_self u l2)))
                · exact hp x (humem x (List.mem_append_right _
                    (List.mem_cons_of_mem u h)))
            · rw [hres, List.pairwise_append, List.pairwise_cons]
              refine ⟨hnd1, ⟨?_, hnd2⟩, ?_⟩
              · intro y hy hsame
                exact hul2 y hy ((hsp2 y).mp hsame)
              · intro x hx y hy
                rcases List.mem_cons.mp hy with rfl | hy
                · intro hsame
                  exact hcross x hx u (List.mem_cons_self u l2) ((hsp x).mp hsame)
                · exact hcross x hx y (List.mem_cons_of_mem u hy)

/-- The direction of `q` seen from `p`: right, left, down or up. -/
def dirIdx (p q : Point) : Fin 4 :=
  if p.x < q.x then 0 else if q.x < p.x then 1 else if p.y < q.y then 2 else 3

/-- An island strictly inside the horizontal span of a candidate edge
`{p, q2}` contradicts the edge's no-island-between property. -/
lemma dir_clash_horiz {islands : List Point} {p q1 q2 : Point} {v : UsedEdge}
    (hbet : hasIslandInBetween v.start v.stop islands = false)
    (hor : (v.start = p ∧ v.stop = q2) ∨ (v.start = q2 ∧ v.stop = p))
    (hq1 : q1 ∈ islands) (hq1p : q1 ≠ p) (hq1q2 : q1 ≠ q2)
    (hy1 : q1.y = p.y) (hy2 : q2.y = p.y)
    (hne : p.x ≠ q2.x)
    (hmin : min p.x q2.x < q1.x) (hmax : q1.x < max p.x q2.x) : False := by
  have hq1a : q1 ≠ v.start := by
    rcases hor with ⟨h, _⟩ | ⟨h, _⟩
    · rw [h]; exact hq1p
    · rw [h]; exact hq1q2
  have hq1b : q1 ≠ v.stop := by
    rcases hor with ⟨_, h⟩ | ⟨_, h⟩
    · rw [h]; exact hq1q2
    · rw [h]; exact hq1p
  refine no_strict_between hbet hq1 hq1a hq1b (Or.inr ?_)
  rcases hor with ⟨h1, h2⟩ | ⟨h1, h2⟩ <;> rw [h1, h2]
  · exact ⟨hne, hy1, hmin, hmax⟩
  · exact ⟨fun h => hne h.symm, hy1.trans hy2.symm, by omega, by omega⟩

/-- The vertical twin of `dir_clash_horiz`. -/
lemma dir_clash_vert {islands : List Point} {p q1 q2 : Point} {v : UsedEdge}
    (hbet : hasIslandInBetween v.start v.stop islands = false)
    (hor : (v.start = p ∧ v.stop = q2) ∨ (v.start = q2 ∧ v.stop = p))
    (hq1 : q1 ∈ islands) (hq1p : q1 ≠ p) (hq1q2 : q1 ≠ q2)
    (hx1 : q1.x = p.x) (hx2 : q2.x = p.x)
    (hne : p.y ≠ q2.y)
    (hmin : min p.y q2.y < q1.y) (hmax : q1.y < max p.y q2.y) : False := by
  have hq1a : q1 ≠ v.start := by
    rcases hor with ⟨h, _⟩ | ⟨h, _⟩
    · rw [h]; exact hq1p
    · rw [h]; exact hq1q2
  have hq1b : q1 ≠ v.stop := by
    rcases hor with ⟨_, h⟩ | ⟨_, h⟩
    · rw [h]; exact hq1q2
    · rw [h]; exact hq1p
  refine no_strict_between hbet hq1 hq1a hq1b (Or.inl ?_)
  rcases hor with ⟨h1, h2⟩ | ⟨h1, h2⟩ <;> rw [h1, h2]
  · exact ⟨hx2.symm, hx1, hmin, hmax⟩
  · exact ⟨hx2, hx1.trans hx2.symm, by omega, by omega⟩

lemma int_sum_le_two_mul_length : ∀ l : List Int, (∀ x ∈ l, x ≤ 2) →
    l.sum ≤ 2 * l.length := by
  intro l
  induction l with
  | nil => intro _; simp
  | cons a t ih =>
      intro h
      have ha := h a (List.mem_cons_self a t)
      have ht := ih fun x hx => h x (List.mem_cons_of_mem a hx)
      rw [List.sum_cons, List.length_cons]
      push_cast
      omega

lemma int_sum_nonneg : ∀ l : List Int, (∀ x ∈ l, 0 ≤ x) → 0 ≤ l.sum := by
  intro l
  induction l with
  | nil => intro _; simp
  | cons a t ih =>
      intro h
      have ha := h a (List.mem_cons_self a t)
      have ht := ih fun x hx => h x (List.mem_cons_of_mem a hx)
      rw [List.sum_cons]
      omega

/-- An island has at most four used edges: the partners are pairwise
distinct and each sits in one of four directions, a direction that at most
one partner can occupy because a second one would lie strictly between the
island and the farther partner, contradicting the candidate edges'
no-island-between property. -/
lemma incident_filter_length_le_four
    {islands : List Point} (hdc : DistinctCoords islands)
    {used : List UsedEdge} (p : Point)
    (hpair : ∀ u ∈ used, (u.start, u.stop) ∈ buildPotential islands)
    (hnd : used.Pairwise fun u v => ¬ samePairE u v) :
    (used.filter fun u => u.start = p ∨ u.stop = p).length ≤ 4 := by
  classical
  have hdc' : islands.Pairwise fun r s => (r.x, r.y) ≠ (s.x, s.y) := hdc
  set partner : UsedEdge → Point :=
    fun u => if u.start = p then u.stop else u.start with hpartner
  set L := used.filter fun u => u.start = p ∨ u.stop = p with hLdef
  have hfact : ∀ u ∈ L, partner u ∈ islands ∧
      ((u.start = p ∧ u.stop = partner u) ∨ (u.start = partner u ∧ u.stop = p)) ∧
      ((partner u).x, (partner u).y) ≠ (p.x, p.y) ∧
      ((partner u).x = p.x ∨ (partner u).y = p.y) ∧
      hasIslandInBetween u.start u.stop islands = false := by
    intro u hu
    have hum : u ∈ used := (List.mem_filter.mp hu).1
    have hinc : u.start = p ∨ u.stop = p := by
      have := (List.mem_filter.mp hu).2
      simpa using this
    have hbp := buildPotential_facts (hpair u hum)
    have hmem := allPairs_mem hbp.1
    have hcne : ((u.start).x, (u.start).y) ≠ ((u.stop).x, (u.stop).y) :=
      allPairs_rel hdc' _ hbp.1
    have haligned := hbp.2.1
    by_cases hsp : u.start = p
    · have hpe : partner u = u.stop := by
        rw [hpartner]
        exact if_pos hsp
      rw [hpe]
      rw [hsp] at hcne haligned
      refine ⟨hmem.2, Or.inl ⟨hsp, rfl⟩, fun h => hcne h.symm, ?_, hbp.2.2⟩
      rcases haligned with h | h
      · exact Or.inl h.symm
      · exact Or.inr h.symm
    · have hst : u.stop = p := by
        rcases hinc with h | h
        · exact absurd h hsp
        · exact h
      have hpe : partner u = u.start := by
        rw [hpartner]
        exact if_neg hsp
      rw [hpe]
      rw [hst] at hcne haligned
      exact ⟨hmem.1, Or.inr ⟨rfl, hst⟩, hcne, haligned, hbp.2.2⟩
  have hLpw : L.Pairwise fun u v => ¬ samePairE u v := hnd.filter _
  have hinj : ∀ u ∈ L, ∀ v ∈ L, u ≠ v →
      dirIdx p (partner u) ≠ dirIdx p (partner v) := by
    intro u hu v hv huv heq
    have hnsp : ¬ samePairE u v := by
      refine hLpw.forall ?_ hu hv huv
      intro a b h hs
      exact h (samePairE_symm hs)
    rcases hfact u hu with ⟨hq1m, hor1, hc1, hal1, hbet1⟩
    rcases hfact v hv with ⟨hq2m, hor2, hc2, hal2, hbet2⟩
    set q1 := partner u with hq1def
    set q2 := partner v with hq2def
    have hq1p : q1 ≠ p := fun he => hc1 (by rw [he])
    have hq2p : q2 ≠ p := fun he => hc2 (by rw [he])
    have hq12 : q1 ≠ q2 := by
      intro he
      apply hnsp
      rcases hor1 with ⟨h1, h2⟩ | ⟨h1, h2⟩ <;>
        rcases hor2 with ⟨h3, h4⟩ | ⟨h3, h4⟩
      · exact Or.inl ⟨h1.trans h3.symm, h2.trans (he ▸ h4.symm)⟩
      · exact Or.inr ⟨h1.trans h4.symm, h2.trans (he ▸ h3.symm)⟩
      · exact Or.inr ⟨h1.trans (he ▸ h4.symm), h2.trans h3.symm⟩
      · exact Or.inl ⟨h1.trans (he ▸ h3.symm), h2.trans h4.symm⟩
    by_cases h1x : p.x < q1.x
    · -- q1 to the right of p
      have hy1 : q1.y = p.y := by
        rcases hal1 with h | h
        · omega
        · exact h
      have hd1 : dirIdx p q1 = 0 := by
        rw [dirIdx, if_pos h1x]
      rw [hd1] at heq
      have h2x : p.x < q2.x := by
        by_contra h2x
        by_cases hb : q2.x < p.x
        · rw [dirIdx, if_neg h2x, if_pos hb] at heq
          exact absurd heq (by decide)
        · by_cases hc : p.y < q2.y
          · rw [dirIdx, if_neg h2x, if_neg hb, if_pos hc] at heq
            exact absurd heq (by decide)
          · rw [dirIdx, if_neg h2x, if_neg hb, if_neg hc] at heq
            exact absurd heq (by decide)
      have hy2 : q2.y = p.y := by
        rcases hal2 with h | h
        · omega
        · exact h
      have hxne : q1.x ≠ q2.x := by
        intro he
        exact hq12 (hdc.coords_inj hq1m hq2m (by rw [he, hy1, hy2]))
      rcases lt_or_gt_of_ne hxne with hlt | hgt
      · exact dir_clash_horiz hbet2 hor2 hq1m hq1p hq12 hy1 hy2 (by omega)
          (by omega) (by omega)
      · exact dir_clash_horiz hbet1 hor1 hq2m hq2p (Ne.symm hq12) hy2 hy1
          (by omega) (by omega) (by omega)
    · by_cases h1x' : q1.x < p.x
      · -- q1 to the left of p
        have hy1 : q1.y = p.y := by
          rcases hal1 with h | h
          · omega
          · exact h
        have hd1 : dirIdx p q1 = 1 := by
          rw [dirIdx, if_neg h1x, if_pos h1x']
        rw [hd1] at heq
        have h2x : q2.x < p.x := by
          by_contra h2x
          by_cases ha : p.x < q2.x
          · rw [dirIdx, if_pos ha] at heq
            exact absurd heq (by decide)
          · by_cases hc : p.y < q2.y
            · rw [dirIdx, if_neg ha, if_neg h2x, if_pos hc] at heq
              exact absurd heq (by decide)
            · rw [dirIdx, if_neg ha, if_neg h2x, if_neg hc] at heq
              exact absurd heq (by decide)
        have hy2 : q2.y = p.y := by
          rcases hal2 with h | h
          · omega
          · exact h
        have hxne : q1.x ≠ q2.x := by
          intro he
          exact hq12 (hdc.coords_inj hq1m hq2m (by rw [he, hy1, hy2]))
        rcases lt_or_gt_of_ne hxne with hlt | hgt
        · exact dir_clash_horiz hbet1 hor1 hq2m hq2p (Ne.symm hq12) hy2 hy1
            (by omega) (by omega) (by omega)
        · exact dir_clash_horiz hbet2 hor2 hq1m hq1p hq12 hy1 hy2 (by omega)
            (by omega) (by omega)
      · -- q1 on the same column as p
        have hx1 : q1.x = p.x := by omega
        have hy1ne : q1.y ≠ p.y := by
          intro he
          exact hq1p (hdc.coords_inj hq1m
            (by
              rcases hfact u hu with ⟨_, hor1', _, _, _⟩
              rcases hor1' with ⟨h1, h2⟩ | ⟨h1, h2⟩
              · exact h1 ▸ allPairs_mem (buildPotential_facts
                  (hpair u (List.mem_filter.mp hu).1)).1 |>.1
              · exact h2 ▸ allPairs_mem (buildPotential_facts
                  (hpair u (List.mem_filter.mp hu).1)).1 |>.2)
            (by rw [hx1, he]))
        by_cases h1y : p.y < q1.y
        · have hd1 : dirIdx p q1 = 2 := by
            rw [dirIdx, if_neg h1x, if_neg h1x', if_pos h1y]
          rw [hd1] at heq
          have h2facts : q2.x = p.x ∧ p.y < q2.y := by
            by_cases ha : p.x < q2.x
            · rw [dirIdx, if_pos ha] at heq
              exact absurd heq (by decide)
            · by_cases hb : q2.x < p.x
              · rw [dirIdx, if_neg ha, if_pos hb] at heq
                exact absurd heq (by decide)
              · by_cases hc : p.y < q2.y
                · exact ⟨by omega, hc⟩
                · rw [dirIdx, if_neg ha, if_neg hb, if_neg hc] at heq
                  exact absurd heq (by decide)
          rcases h2facts with ⟨hx2, h2y⟩
          have hyne : q1.y ≠ q2.y := by
            intro he
            exact hq12 (hdc.coords_inj hq1m hq2m (by rw [hx1, hx2, he]))
          rcases lt_or_gt_of_ne hyne with hlt | hgt
          · exact dir_clash_vert hbet2 hor2 hq1m hq1p hq12 hx1 hx2 (by omega)
              (by omega) (by omega)
          · exact dir_clash_vert hbet1 hor1 hq2m hq2p (Ne.symm hq12) hx2 hx1
              (by omega) (by omega) (by omega)
        · have h1y' : q1.y < p.y := by omega
          have hd1 : dirIdx p q1 = 3 := by
            rw [dirIdx, if_neg h1x, if_neg h1x', if_neg h1y]
          rw [hd1] at heq
          have h2facts : q2.x = p.x ∧ ¬ (p.y < q2.y) := by
            by_cases ha : p.x < q2.x
            · rw [dirIdx, if_pos ha] at heq
              exact absurd heq (by decide)
            · by_cases hb : q2.x < p.x
              · rw [dirIdx, if_neg ha, if_pos hb] at heq
                exact absurd heq (by decide)
              · by_cases hc : p.y < q2.y
                · rw [dirIdx, if_neg ha, if_neg hb, if_pos hc] at heq
                  exact absurd heq (by decide)
                · exact ⟨by omega, hc⟩
          rcases h2facts with ⟨hx2, h2y⟩
          have hy2ne : q2.y ≠ p.y := by
            intro he
            exact hq2p (hdc.coords_inj hq2m
              (by
                rcases hor1 with ⟨h1, _⟩ | ⟨_, h2⟩
                · exact h1 ▸ allPairs_mem (buildPotential_facts
                    (hpair u (List.mem_filter.mp hu).1)).1 |>.1
                · exact h2 ▸ allPairs_mem (buildPotential_facts
                    (hpair u (List.mem_filter.mp hu).1)).1 |>.2)
              (by rw [hx2, he]))
          have h2y' : q2.y < p.y := by omega
          have hyne : q1.y ≠ q2.y := by
            intro he
            exact hq12 (hdc.coords_inj hq1m hq2m (by rw [hx1, hx2, he]))
          rcases lt_or_gt_of_ne hyne with hlt | hgt
          · exact dir_clash_vert hbet1 hor1 hq2m hq2p (Ne.symm hq12) hx2 hx1
              (by omega) (by omega) (by omega)
          · exact dir_clash_vert hbet2 hor2 hq1m hq1p hq12 hx1 hx2 (by omega)
              (by omega) (by omega)
  have hndL : L.Nodup := by
    refine hLpw.imp ?_
    intro a b h he
    exact h (by rw [he]; exact samePairE_refl b)
  calc L.length = L.toFinset.card := (List.toFinset_card_of_nodup hndL).symm
    _ ≤ (Finset.univ : Finset (Fin 4)).card := by
        refine Finset.card_le_card_of_injOn (fun u => dirIdx p (partner u))
          (fun _ _ => Finset.mem_univ _) ?_
        intro u hu' v hv' heq
        have hu'' : u ∈ L := by simpa using hu'
        have hv'' : v ∈ L := by simpa using hv'
        by_contra hne
        exact hinj u hu'' v hv'' hne heq
    _ = 4 := by simp

/-- Value bounds for the summation step: starting from all-zero values,
each island's realized value is the sum of at most four incident edge
counts, each at most `2`. -/
lemma assignValues_value_bounds {islands : List Point} {used : List UsedEdge}
    (hdc : DistinctCoords islands)
    (hcnt : ∀ u ∈ used, u.count = 1 ∨ u.count = 2)
    (hpair : ∀ u ∈ used, (u.start, u.stop) ∈ buildPotential islands)
    (hnd : used.Pairwise fun u v => ¬ samePairE u v)
    (hz : ∀ p ∈ islands, p.value = 0) :
    ∀ q ∈ assignValues islands used, 0 ≤ q.value ∧ q.value ≤ 8 := by
  intro q hq
  unfold assignValues at hq
  rcases List.mem_map.mp hq with ⟨isl, hisl, rfl⟩
  set S := ((used.filter fun e => e.start = isl ∨ e.stop = isl).map
    fun e => e.count).sum with hS
  show 0 ≤ isl.value + S ∧ isl.value + S ≤ 8
  have h0 : isl.value = 0 := hz isl hisl
  have hcof : ∀ x ∈ (used.filter fun e => e.start = isl ∨ e.stop = isl).map
      fun e => e.count, x = 1 ∨ x = 2 := by
    intro x hx
    rcases List.mem_map.mp hx with ⟨u, hu, rfl⟩
    exact hcnt u (List.mem_filter.mp hu).1
  have hnn : 0 ≤ S := by
    rw [hS]
    refine int_sum_nonneg _ ?_
    intro x hx
    rcases hcof x hx with h | h <;> omega
  have hlen : (used.filter fun e => e.start = isl ∨ e.stop = isl).length ≤ 4 :=
    incident_filter_length_le_four hdc isl hpair hnd
  have hle : S ≤ 2 * ((used.filter fun e => e.start = isl ∨ e.stop = isl).map
      fun e => e.count).length := by
    rw [hS]
    refine int_sum_le_two_mul_length _ ?_
    intro x hx
    rcases hcof x hx with h | h <;> omega
  rw [List.length_map] at hle
  have hlen' : ((used.filter fun e => e.start = isl ∨ e.stop = isl).length : Int)
      ≤ 4 := by exact_mod_cast hlen
  omega

/-- An accepted generation attempt yields island values in `[1, 8]`. -/
lemma attemptBuild_values_in_range {c : AttemptChoices} {b : GameBoard}
    (hwf : WFChoices c) (hacc : attemptBuild c = some b) :
    ∀ p ∈ b, 1 ≤ p.value ∧ p.value ≤ 8 := by
  classical
  obtain ⟨hndpos, hperm1, hperm2⟩ := hwf
  have hdc : DistinctCoords (mkIslands c.positions) := by
    unfold DistinctCoords mkIslands
    rw [List.pairwise_map]
    refine hndpos.imp_of_mem ?_
    intro q1 q2 _ _ hne
    simpa using hne
  have hdc' : (mkIslands c.positions).Pairwise
      fun r s => (r.x, r.y) ≠ (s.x, s.y) := hdc
  have hndisl : (mkIslands c.positions).Nodup := by
    refine hdc'.imp ?_
    intro a b h he
    exact h (by rw [he])
  have hz0 : ∀ p ∈ mkIslands c.positions, p.value = 0 := by
    intro p hp
    unfold mkIslands at hp
    rcases List.mem_map.mp hp with ⟨pos, _, rfl⟩
    rfl
  have hes1 : ∀ e ∈ c.mstEdges,
      e.1 ∈ mkIslands c.positions ∧ e.2 ∈ mkIslands c.positions := by
    intro e he
    have hbp : e ∈ buildPotential (mkIslands c.positions) := hperm1.mem_iff.mp he
    exact allPairs_mem (buildPotential_facts hbp).1
  have hc1 : ∀ u ∈ (mstFold c.mstEdges (initComps (mkIslands c.positions))).2,
      u.count = 1 ∨ u.count = 2 :=
    fun u hu => Or.inl (mstFold_accepted_mem _ _ u hu).2
  have hp1 : ∀ u ∈ (mstFold c.mstEdges (initComps (mkIslands c.positions))).2,
      (u.start, u.stop) ∈ buildPotential (mkIslands c.positions) :=
    fun u hu => hperm1.mem_iff.mp (mstFold_accepted_mem _ _ u hu).1
  have hnd1 := mstFold_accepted_pairwise c.mstEdges
    (initComps (mkIslands c.positions)) (initComps_partition hndisl) hes1
  obtain ⟨hc2, hp2, hnd2⟩ := augmentFold_facts c.extraEdges
    ((mkIslands c.positions).length / 2)
    (mstFold c.mstEdges (initComps (mkIslands c.positions))).2 hc1 hp1
    (fun e he => hperm2.mem_iff.mp he) hnd1
  unfold attemptBuild at hacc
  simp only at hacc
  split at hacc
  · exact absurd hacc (by simp)
  · rename_i hnz
    rw [Option.some.injEq] at hacc
    subst hacc
    intro p hp
    rcases List.mem_map.mp hp with ⟨q, hq, rfl⟩
    have hq0 : ¬ q.value = 0 := fun he =>
      hnz (List.any_eq_true.mpr ⟨q, hq, by simpa using he⟩)
    have hb := assignValues_value_bounds hdc hc2 hp2 hnd2 hz0 q hq
    show 1 ≤ q.value ∧ q.value ≤ 8
    rcases hb with ⟨h1, h2⟩
    omega

/-- C6: every board the generation loop accepts (a non-fallback result,
i.e. some attempt's `attemptBuild` succeeded) has every island's `value` in
`[1, 8]`; in particular no island has value `0`. -/
theorem generated_values_in_range (cs : List AttemptChoices) (b : GameBoard)
    (p : Point) (hwf : ∀ c ∈ cs, WFChoices c)
    (hacc : cs.findSome? attemptBuild = some b) (hp : p ∈ b) :
    generateValidPuzzle cs = b ∧ 1 ≤ p.value ∧ p.value ≤ 8 := by
  rcases List.exists_of_findSome?_eq_some hacc with ⟨c, hc, hcb⟩
  refine ⟨?_, attemptBuild_values_in_range (hwf c hc) hcb p hp⟩
  unfold generateValidPuzzle
  rw [hacc]

/-- Witness for C6: the accepted two-island attempt produces the board with
both values `2`, inside `[1, 8]`. -/
theorem generated_values_in_range_witness :
    generateValidPuzzle [goodChoice] =
        [Point.mk 2 0 0 0 0 2, Point.mk 2 1 0 0 0 2] ∧
      1 ≤ (Point.mk 2 0 0 0 0 2).value ∧ (Point.mk 2 0 0 0 0 2).value ≤ 8 :=
  generated_values_in_range [goodChoice]
    [Point.mk 2 0 0 0 0 2, Point.mk 2 1 0 0 0 2] (Point.mk 2 0 0 0 0 2)
    (by decide) (by decide) (by decide)

end Hashi
